import Mathlib

/-!
# Verification of the `react` reactive-cell engine

Shallow embedding of `src/rust/react/src/lib.rs`: a `Reactor` owning input
cells, compute cells (with dependency lists and compute functions), a
dependency graph, and change callbacks.  Rust `HashMap`s are modelled as
association lists, the process-wide `OBJECT_ID` atomic counter as an explicit
`Nat` threaded through the allocating operations, and callback closures by
their `CallbackID`s, with `set_value` returning the trace of callback
invocations it performs.
-/

namespace React

/-! ## Definitions: the data model and the public operations -/

/-- Association-list lookup, modelling `HashMap::get`. -/
def lookupK {K V : Type} [DecidableEq K] (k : K) : List (K × V) → Option V
  | [] => none
  | (k₂, v) :: l => if k₂ = k then some v else lookupK k l

/-- Remove the binding for `k`, helper for `insertK`. -/
def eraseK {K V : Type} [DecidableEq K] (k : K) : List (K × V) → List (K × V)
  | [] => []
  | (k₂, v) :: l => if k₂ = k then eraseK k l else (k₂, v) :: eraseK k l

/-- Association-list insertion, modelling `HashMap::insert` (replaces any
existing binding for the key). -/
def insertK {K V : Type} [DecidableEq K] (k : K) (v : V) (l : List (K × V)) : List (K × V) :=
  (k, v) :: eraseK k l

/-- Key membership, modelling `HashMap::contains_key`. -/
def containsK {K V : Type} [DecidableEq K] (k : K) (l : List (K × V)) : Bool :=
  (lookupK k l).isSome

/-- The keys of an association list. -/
def keysOf {K V : Type} (l : List (K × V)) : List K :=
  l.map Prod.fst

/-- `InputCellID` is a unique identifier for an input cell; the wrapped `Nat`
is the value taken from the process-wide `OBJECT_ID` counter. -/
structure InputCellID where
  id : Nat
deriving DecidableEq, Repr

/-- `ComputeCellID` is a unique identifier for a compute cell. -/
structure ComputeCellID where
  id : Nat
deriving DecidableEq, Repr

/-- `CallbackID` is a unique identifier for a registered callback. -/
structure CallbackID where
  id : Nat
deriving DecidableEq, Repr

/-- `CellID`: either an input cell or a compute cell. -/
inductive CellID where
  | Input (i : InputCellID)
  | Compute (c : ComputeCellID)
deriving DecidableEq, Repr

/-- The underlying counter value of a `CellID`. -/
def CellID.num : CellID → Nat
  | .Input i => i.id
  | .Compute c => c.id

/-- `RemoveCallbackError`, the error taxonomy of `remove_callback`. -/
inductive RemoveCallbackError where
  | NonexistentCell
  | NonexistentCallback
deriving DecidableEq, Repr

/-- The `Reactor` state.  `HashMap`s are association lists; the compute
functions are stored as Lean functions `List T → T`; a callback registry is
the list of currently registered `CallbackID`s (the callback closures
themselves carry no modelled state — `set_value` returns the trace of
invocations instead of running them). -/
structure Reactor (T : Type) where
  graph : List (CellID × List CellID)
  input_values : List (InputCellID × T)
  compute_cell_funcs : List (ComputeCellID × (List T → T))
  callbacks : List (ComputeCellID × List CallbackID)

/-- `Reactor::new`. -/
def Reactor.new (T : Type) : Reactor T :=
  { graph := [], input_values := [], compute_cell_funcs := [], callbacks := [] }

variable {T : Type} [DecidableEq T]

/-- `HashMap::entry(k).or_default()`: insert the default value when the key
is absent, leave the map unchanged otherwise. -/
def entryOrDefault {K V : Type} [DecidableEq K] [Inhabited V] (k : K)
    (l : List (K × V)) : List (K × V) :=
  if containsK k l then l else insertK k default l

/-- `Reactor::create_input`: allocates a fresh `InputCellID` from the counter
`ctr` (modelling `OBJECT_ID.fetch_add(1)`), registers an empty adjacency list
for it in the graph and stores the initial value.  Returns the new reactor,
the advanced counter and the new ID. -/
def Reactor.create_input (r : Reactor T) (ctr : Nat) (initial : T) :
    Reactor T × Nat × InputCellID :=
  let input_cell_id : InputCellID := ⟨ctr⟩
  ({ r with
      graph := entryOrDefault (CellID.Input input_cell_id) r.graph,
      input_values := insertK input_cell_id initial r.input_values },
    ctr + 1, input_cell_id)

/-- `Reactor::create_compute`: checks the dependencies in order and fails with
the first one absent from the graph (the counter is not advanced in that
case, since `ComputeCellID::new()` is only reached after the loop); on
success allocates a fresh `ComputeCellID`, stores the compute function and
records the dependency list as the cell's graph edges. -/
def Reactor.create_compute (r : Reactor T) (ctr : Nat) (dependencies : List CellID)
    (compute_func : List T → T) :
    Reactor T × Nat × Except CellID ComputeCellID :=
  match dependencies.find? (fun dep => ¬ containsK dep r.graph) with
  | some dep => (r, ctr, .error dep)
  | none =>
    let compute_cell_id : ComputeCellID := ⟨ctr⟩
    ({ r with
        compute_cell_funcs := insertK compute_cell_id compute_func r.compute_cell_funcs,
        graph := insertK (CellID.Compute compute_cell_id) dependencies r.graph },
      ctr + 1, .ok compute_cell_id)

/-- The dependency-resolution loop of `Reactor::value` on a compute cell:
resolve each dependency in order, returning `none` as soon as one fails. -/
def resolveDeps (f : CellID → Option T) : List CellID → Option (List T)
  | [] => some []
  | dep :: deps =>
    match f dep with
    | some v => (resolveDeps f deps).map (v :: ·)
    | none => none

/-- `Reactor::value`, with explicit fuel bounding the recursion depth (the
Rust code recurses through the dependency graph, which is acyclic in every
reachable state; `valueFuel_stable` below shows the result is independent of
the fuel once it exceeds the cell's rank).  `self.graph[&id]` is an unchecked
index in the source; it is modelled with default `[]`, and `c10` shows the
key is always present for an existing compute cell. -/
def valueFuel : Nat → Reactor T → CellID → Option T
  | 0, _, _ => none
  | n + 1, r, id =>
    match id with
    | .Input input_cell_id => lookupK input_cell_id r.input_values
    | .Compute compute_cell_id =>
      (lookupK compute_cell_id r.compute_cell_funcs).bind fun func =>
        (resolveDeps (valueFuel n r) ((lookupK id r.graph).getD [])).map func

/-- `Reactor::value`: the fuel `id.num + 1` always suffices in reachable
states, since every dependency edge strictly decreases `CellID.num`. -/
def Reactor.value (r : Reactor T) (id : CellID) : Option T :=
  valueFuel (id.num + 1) r id

/-- The loop body of `Reactor::depends_on`: depth-first search over the
dependency edges with an explicit stack (`Vec::pop` takes the last element,
so `stack.extend(deps)` makes the last dependency the next visited; the list
model keeps the top at the head, hence `deps.reverse ++ rest`) and a seen
set preventing revisits. -/
def dfsGo (g : List (CellID × List CellID)) (b : CellID) :
    List CellID → List CellID → Bool
  | [], _ => false
  | node :: rest, seen =>
    if node = b then true
    else if hseen : node ∈ seen then dfsGo g b rest seen
    else
      match hdep : lookupK node g with
      | some deps => dfsGo g b (deps.reverse ++ rest) (node :: seen)
      | none => dfsGo g b rest (node :: seen)
termination_by stack seen => (((keysOf g).filter (fun x => x ∉ seen)).length, stack.length)
decreasing_by
  · exact Prod.Lex.right _ (Nat.lt_succ_self _)
  · have hmm : ∀ (l : List (CellID × List CellID)) (u : CellID) (ds : List CellID),
        lookupK u l = some ds → u ∈ keysOf l := by
      intro l u ds
      induction l with
      | nil => intro h; exact Option.noConfusion h
      | cons p l ih =>
        obtain ⟨k₂, w⟩ := p
        intro h
        by_cases hk : k₂ = u
        · exact hk ▸ List.mem_cons_self _ _
        · simp only [lookupK, if_neg hk] at h
          exact List.mem_cons_of_mem _ (ih h)
    have hle : ∀ (a : CellID) (sn l : List CellID),
        (l.filter (fun x => x ∉ a :: sn)).length ≤ (l.filter (fun x => x ∉ sn)).length := by
      intro a sn l
      induction l with
      | nil => exact Nat.le_refl _
      | cons c l ih =>
        rw [List.filter_cons, List.filter_cons]
        by_cases hcs : c ∈ sn
        · have h₁ : c ∈ a :: sn := List.mem_cons_of_mem _ hcs
          simp only [h₁, hcs, decide_not]
          simpa using ih
        · by_cases hca : c = a
          · subst hca
            have h₁ : c ∈ c :: sn := List.mem_cons_self _ _
            simp only [h₁, hcs, decide_not]
            simpa using Nat.le_trans ih (Nat.le_succ _)
          · have h₁ : c ∉ a :: sn := by
              intro h
              rcases List.mem_cons.mp h with h | h
              · exact hca h
              · exact hcs h
            simp only [h₁, hcs, decide_not]
            simpa using ih
    have hlt : ∀ (a : CellID) (sn l : List CellID), a ∈ l → a ∉ sn →
        (l.filter (fun x => x ∉ a :: sn)).length < (l.filter (fun x => x ∉ sn)).length := by
      intro a sn l
      induction l with
      | nil => intro h; exact absurd h (List.not_mem_nil a)
      | cons c l ih =>
        intro hal has
        rw [List.filter_cons, List.filter_cons]
        by_cases hca : c = a
        · subst hca
          have h₁ : c ∈ c :: sn := List.mem_cons_self _ _
          simp only [h₁, has, decide_not]
          simpa using Nat.lt_succ_of_le (hle c sn l)
        · have hal₂ : a ∈ l := by
            rcases List.mem_cons.mp hal with h | h
            · exact absurd h.symm hca
            · exact h
          by_cases hcs : c ∈ sn
          · have h₁ : c ∈ a :: sn := List.mem_cons_of_mem _ hcs
            simp only [h₁, hcs, decide_not]
            simpa using ih hal₂ has
          · have h₁ : c ∉ a :: sn := by
              intro h
              rcases List.mem_cons.mp h with h | h
              · exact hca h
              · exact hcs h
            simp only [h₁, hcs, decide_not]
            simpa using Nat.succ_lt_succ (ih hal₂ has)
    exact Prod.Lex.left _ _ (hlt node seen (keysOf g) (hmm g node deps hdep) hseen)
  · have hnm : ∀ (l : List (CellID × List CellID)) (u : CellID),
        lookupK u l = none → u ∉ keysOf l := by
      intro l u
      induction l with
      | nil => intro _ h; exact absurd h (List.not_mem_nil u)
      | cons p l ih =>
        obtain ⟨k₂, w⟩ := p
        intro h hm
        by_cases hk : k₂ = u
        · simp only [lookupK, if_pos hk] at h
          exact Option.noConfusion h
        · simp only [lookupK, if_neg hk] at h
          rcases List.mem_cons.mp hm with hm | hm
          · exact hk hm.symm
          · exact ih h hm
    have heq : ∀ (a : CellID) (sn l : List CellID), a ∉ l →
        l.filter (fun x => x ∉ a :: sn) = l.filter (fun x => x ∉ sn) := by
      intro a sn l
      induction l with
      | nil => intro _; rfl
      | cons c l ih =>
        intro hal
        have hca : c ≠ a := fun h => hal (h ▸ List.mem_cons_self _ _)
        have hal₂ : a ∉ l := fun h => hal (List.mem_cons_of_mem _ h)
        rw [List.filter_cons, List.filter_cons]
        by_cases hcs : c ∈ sn
        · have h₁ : c ∈ a :: sn := List.mem_cons_of_mem _ hcs
          simp only [h₁, hcs, decide_not]
          simpa using ih hal₂
        · have h₁ : c ∉ a :: sn := by
            intro h
            rcases List.mem_cons.mp h with h | h
            · exact hca h
            · exact hcs h
          simp only [h₁, hcs, decide_not]
          simpa using ih hal₂
    rw [heq node seen (keysOf g) (hnm g node hdep)]
    exact Prod.Lex.right _ (Nat.lt_succ_self _)

/-- `Reactor::depends_on a b`: whether `b` is reachable from `a` along the
dependency edges (including `a = b`). -/
def Reactor.depends_on (r : Reactor T) (a b : CellID) : Bool :=
  dfsGo r.graph b [a] []

/-- `Reactor::set_value`: if the input cell exists, snapshot the value of
every compute cell that (transitively) depends on it, write the new value,
re-evaluate those cells, and for each whose value changed (to a resolvable
value) invoke every callback registered on it with the new value.  Returns
the new reactor, the boolean result, and the trace of callback invocations
(each registered callback that fires contributes one `(CallbackID, value)`
pair, in invocation order). -/
def Reactor.set_value (r : Reactor T) (id : InputCellID) (new_value : T) :
    Reactor T × Bool × List (CallbackID × T) :=
  let input_cell := CellID.Input id
  if containsK id r.input_values then
    let cells_to_compute :=
      (keysOf r.compute_cell_funcs).filter
        (fun compute_cell_id => r.depends_on (CellID.Compute compute_cell_id) input_cell)
    let current_values :=
      cells_to_compute.map (fun cell => (cell, r.value (CellID.Compute cell)))
    let r₂ : Reactor T := { r with input_values := insertK id new_value r.input_values }
    let cells_to_callback :=
      current_values.filterMap (fun p =>
        let nv := r₂.value (CellID.Compute p.1)
        if nv ≠ p.2 then nv.map (fun v => (p.1, v)) else none)
    let fired :=
      cells_to_callback.flatMap (fun p =>
        ((lookupK p.1 r₂.callbacks).getD []).map (fun cb => (cb, p.2)))
    (r₂, true, fired)
  else (r, false, [])

/-- `Reactor::add_callback`: fails when the compute cell does not exist;
otherwise allocates a fresh `CallbackID` from the counter and registers it
under the cell (`entry(id).or_default().insert(...)`). -/
def Reactor.add_callback (r : Reactor T) (ctr : Nat) (id : ComputeCellID) :
    Reactor T × Nat × Option CallbackID :=
  if containsK id r.compute_cell_funcs then
    let callback_id : CallbackID := ⟨ctr⟩
    let registry := (lookupK id r.callbacks).getD []
    ({ r with callbacks := insertK id (registry.insert callback_id) r.callbacks },
      ctr + 1, some callback_id)
  else (r, ctr, none)

/-- `Reactor::remove_callback`: `NonexistentCell` when the cell has no
callback registry entry at all, `NonexistentCallback` when the registry
entry does not contain the callback, otherwise removes it. -/
def Reactor.remove_callback (r : Reactor T) (cell : ComputeCellID) (callback : CallbackID) :
    Reactor T × Except RemoveCallbackError Unit :=
  match lookupK cell r.callbacks with
  | none => (r, .error .NonexistentCell)
  | some registry =>
    if callback ∈ registry then
      ({ r with callbacks := insertK cell (registry.erase callback) r.callbacks },
        .ok ())
    else (r, .error .NonexistentCallback)

/-- A public operation on a reactor (the argument closures of
`create_compute` are Lean functions; the callback closure of `add_callback`
carries no modelled state, so the operation only names the cell). -/
inductive Op (T : Type) where
  | createInput (initial : T)
  | createCompute (dependencies : List CellID) (compute_func : List T → T)
  | setValue (id : InputCellID) (new_value : T)
  | addCallback (id : ComputeCellID)
  | removeCallback (cell : ComputeCellID) (callback : CallbackID)

/-- A reactor together with the process-wide `OBJECT_ID` counter. -/
structure Sys (T : Type) where
  ctr : Nat
  reactor : Reactor T

/-- Apply one public operation: the new system, the identifier numbers
issued from the shared counter, and the trace of callback invocations. -/
def applyOp (s : Sys T) : Op T → Sys T × List Nat × List (CallbackID × T)
  | .createInput v =>
    let res := s.reactor.create_input s.ctr v
    (⟨res.2.1, res.1⟩, [res.2.2.id], [])
  | .createCompute deps f =>
    let res := s.reactor.create_compute s.ctr deps f
    (⟨res.2.1, res.1⟩, match res.2.2 with | .ok c => [c.id] | .error _ => [], [])
  | .setValue i v =>
    let res := s.reactor.set_value i v
    (⟨s.ctr, res.1⟩, [], res.2.2)
  | .addCallback c =>
    let res := s.reactor.add_callback s.ctr c
    (⟨res.2.1, res.1⟩, match res.2.2 with | some k => [k.id] | none => [], [])
  | .removeCallback c k =>
    let res := s.reactor.remove_callback c k
    (⟨s.ctr, res.1⟩, [], [])

/-- Run a list of operations, concatenating the issued identifiers and the
callback-invocation traces. -/
def runOps (s : Sys T) : List (Op T) → Sys T × List Nat × List (CallbackID × T)
  | [] => (s, [], [])
  | op :: ops =>
    let step := applyOp s op
    let rest := runOps step.1 ops
    (rest.1, step.2.1 ++ rest.2.1, step.2.2 ++ rest.2.2)

/-- A system state is reachable when some sequence of public operations
produces it from a fresh reactor (the counter may start anywhere, since
other reactors and callbacks may have been allocated before this one). -/
def Reachable (s : Sys T) : Prop :=
  ∃ (n : Nat) (ops : List (Op T)), (runOps ⟨n, Reactor.new T⟩ ops).1 = s

/-- One dependency edge of the graph: `u` lists `v` among its dependencies. -/
def Edge (g : List (CellID × List CellID)) (u v : CellID) : Prop :=
  ∃ deps, lookupK u g = some deps ∧ v ∈ deps

/-- Graph reachability along dependency edges (reflexive-transitive). -/
def Reaches (g : List (CellID × List CellID)) : CellID → CellID → Prop :=
  Relation.ReflTransGen (Edge g)

/-- Every dependency edge strictly decreases the underlying identifier
number.  Holds in every reachable state: dependencies must exist before the
depending cell is created, and identifiers increase monotonically. -/
def WellRanked (g : List (CellID × List CellID)) : Prop :=
  ∀ u deps, lookupK u g = some deps → ∀ d ∈ deps, d.num < u.num

/-- The invariant maintained by every public operation: identifiers in the
state are below the shared counter, the dependency graph is well-ranked
(hence acyclic) and closed, graph membership matches the value and function
stores, and callback registries are duplicate-free, bounded and pairwise
disjoint. -/
structure Inv (s : Sys T) : Prop where
  funcs_keys_nodup : (keysOf s.reactor.compute_cell_funcs).Nodup
  graph_keys_lt : ∀ u ∈ keysOf s.reactor.graph, u.num < s.ctr
  ranked : WellRanked s.reactor.graph
  closed : ∀ u deps, lookupK u s.reactor.graph = some deps →
    ∀ d ∈ deps, d ∈ keysOf s.reactor.graph
  input_iff : ∀ i : InputCellID,
    CellID.Input i ∈ keysOf s.reactor.graph ↔ containsK i s.reactor.input_values = true
  compute_iff : ∀ c : ComputeCellID,
    CellID.Compute c ∈ keysOf s.reactor.graph ↔
      containsK c s.reactor.compute_cell_funcs = true
  cb_cells : ∀ c ∈ keysOf s.reactor.callbacks,
    containsK c s.reactor.compute_cell_funcs = true
  cb_reg_nodup : ∀ c reg, lookupK c s.reactor.callbacks = some reg → reg.Nodup
  cb_disjoint : ∀ c₁ c₂ reg₁ reg₂ k, lookupK c₁ s.reactor.callbacks = some reg₁ →
    lookupK c₂ s.reactor.callbacks = some reg₂ → k ∈ reg₁ → k ∈ reg₂ → c₁ = c₂
  cb_ids_lt : ∀ c reg, lookupK c s.reactor.callbacks = some reg → ∀ k ∈ reg, k.id < s.ctr

/-- An input cell holding `1`, a compute cell adding `1` to it, and one
registered callback on the compute cell. -/
def exOps : List (Op Int) :=
  [.createInput 1,
   .createCompute [.Input ⟨0⟩] (fun vs => vs.headD 0 + 1),
   .addCallback ⟨1⟩]

def exSys : Sys Int :=
  (runOps ⟨0, Reactor.new Int⟩ exOps).1

/-- `k` is nowhere registered and its number is already spent (below the
counter), so no future operation can register or invoke it. -/
def NotRegistered (k : CallbackID) (s : Sys T) : Prop :=
  k.id < s.ctr ∧ ∀ c reg, lookupK c s.reactor.callbacks = some reg → k ∉ reg

/-- The whole process: the shared `OBJECT_ID` counter together with any
number of `Reactor` instances. -/
structure MSys (T : Type) where
  ctr : Nat
  reactors : List (Reactor T)

/-- A process-level operation: construct a new reactor, or apply a public
operation to the `i`-th existing reactor. -/
inductive MOp (T : Type) where
  | newReactor
  | onReactor (i : Nat) (op : Op T)

/-- Apply one process-level operation; returns the numbers issued from the
shared counter. -/
def applyMOp (s : MSys T) : MOp T → MSys T × List Nat
  | .newReactor => (⟨s.ctr, s.reactors ++ [Reactor.new T]⟩, [])
  | .onReactor i op =>
    match s.reactors[i]? with
    | some r =>
      let res := applyOp ⟨s.ctr, r⟩ op
      (⟨res.1.ctr, s.reactors.set i res.1.reactor⟩, res.2.1)
    | none => (s, [])

/-- Run a list of process-level operations, concatenating the issued
identifier numbers. -/
def runMOps (s : MSys T) : List (MOp T) → MSys T × List Nat
  | [] => (s, [])
  | op :: ops =>
    let step := applyMOp s op
    let rest := runMOps step.1 ops
    (rest.1, step.2 ++ rest.2)

/-! ## Theorems -/

@[simp] theorem lookupK_nil {K V : Type} [DecidableEq K] (k : K) :
    lookupK (V := V) k [] = none := rfl

@[simp] theorem lookupK_cons {K V : Type} [DecidableEq K] (k k₂ : K) (v : V) (l : List (K × V)) :
    lookupK k ((k₂, v) :: l) = if k₂ = k then some v else lookupK k l := rfl

theorem lookupK_eraseK {K V : Type} [DecidableEq K] (k j : K) (l : List (K × V)) :
    lookupK j (eraseK k l) = if j = k then none else lookupK j l := by
  induction l with
  | nil => by_cases h : j = k <;> simp [eraseK, h]
  | cons p l ih =>
    obtain ⟨k₂, v⟩ := p
    by_cases hk : k₂ = k
    · subst hk
      rw [show eraseK k₂ ((k₂, v) :: l) = eraseK k₂ l from by simp [eraseK], ih]
      by_cases hj : j = k₂
      · simp [hj]
      · have h₂ : ¬ k₂ = j := fun h => hj h.symm
        simp [hj, h₂]
    · rw [show eraseK k ((k₂, v) :: l) = (k₂, v) :: eraseK k l from by simp [eraseK, hk]]
      by_cases hj : k₂ = j
      · subst hj
        have hjk : ¬ k₂ = k := hk
        simp [hjk]
      · simp [hj, ih]

theorem lookupK_insertK_self {K V : Type} [DecidableEq K] (k : K) (v : V) (l : List (K × V)) :
    lookupK k (insertK k v l) = some v := by
  simp [insertK]

theorem lookupK_insertK_ne {K V : Type} [DecidableEq K] {k j : K} (h : j ≠ k) (v : V)
    (l : List (K × V)) : lookupK j (insertK k v l) = lookupK j l := by
  simp [insertK, Ne.symm h, lookupK_eraseK, h]

theorem lookupK_mem {K V : Type} [DecidableEq K] {k : K} {v : V} {l : List (K × V)}
    (h : lookupK k l = some v) : (k, v) ∈ l := by
  induction l with
  | nil => simp at h
  | cons p l ih =>
    obtain ⟨k₂, w⟩ := p
    by_cases hk : k₂ = k
    · subst hk; simp at h; simp [h]
    · simp [hk] at h; exact List.mem_cons_of_mem _ (ih h)

theorem lookupK_mem_keys {K V : Type} [DecidableEq K] {k : K} {v : V} {l : List (K × V)}
    (h : lookupK k l = some v) : k ∈ keysOf l := by
  have := lookupK_mem h
  exact List.mem_map.mpr ⟨(k, v), this, rfl⟩

theorem lookupK_eq_none_of_not_mem_keys {K V : Type} [DecidableEq K] {k : K} {l : List (K × V)}
    (h : k ∉ keysOf l) : lookupK k l = none := by
  cases hl : lookupK k l with
  | none => rfl
  | some v => exact absurd (lookupK_mem_keys hl) h

theorem mem_keys_of_lookupK_isSome {K V : Type} [DecidableEq K] {k : K} {l : List (K × V)}
    (h : (lookupK k l).isSome) : k ∈ keysOf l := by
  cases hl : lookupK k l with
  | none => rw [hl] at h; simp at h
  | some v => exact lookupK_mem_keys hl

theorem lookupK_isSome_of_mem_keys {K V : Type} [DecidableEq K] {k : K} {l : List (K × V)}
    (h : k ∈ keysOf l) : (lookupK k l).isSome := by
  induction l with
  | nil => simp [keysOf] at h
  | cons p l ih =>
    obtain ⟨k₂, v⟩ := p
    by_cases hk : k₂ = k
    · simp [hk]
    · have h₂ : k = k₂ ∨ k ∈ keysOf l := List.mem_cons.mp h
      rcases h₂ with h₂ | h₂
      · exact absurd h₂.symm hk
      · simpa [hk] using ih h₂

theorem containsK_iff_mem_keys {K V : Type} [DecidableEq K] (k : K) (l : List (K × V)) :
    containsK k l = true ↔ k ∈ keysOf l := by
  constructor
  · intro h; exact mem_keys_of_lookupK_isSome h
  · intro h; exact lookupK_isSome_of_mem_keys h

theorem containsK_false_lookupK {K V : Type} [DecidableEq K] {k : K} {l : List (K × V)}
    (h : containsK k l = false) : lookupK k l = none := by
  cases hl : lookupK k l with
  | none => rfl
  | some v => simp [containsK, hl] at h

theorem lookupK_insertK {K V : Type} [DecidableEq K] (j k : K) (v : V) (l : List (K × V)) :
    lookupK j (insertK k v l) = if j = k then some v else lookupK j l := by
  by_cases h : j = k
  · subst h; simp [lookupK_insertK_self]
  · simp [lookupK_insertK_ne h, h]

theorem keysOf_insertK {K V : Type} [DecidableEq K] (k : K) (v : V) (l : List (K × V)) :
    keysOf (insertK k v l) = k :: keysOf (eraseK k l) := rfl

theorem mem_keys_eraseK {K V : Type} [DecidableEq K] {j k : K} {l : List (K × V)}
    (h : j ∈ keysOf (eraseK k l)) : j ∈ keysOf l := by
  induction l with
  | nil => simpa [eraseK] using h
  | cons p l ih =>
    obtain ⟨k₂, v⟩ := p
    by_cases hk : k₂ = k
    · rw [show eraseK k ((k₂, v) :: l) = eraseK k l from by simp [eraseK, hk]] at h
      exact List.mem_cons_of_mem _ (ih h)
    · rw [show eraseK k ((k₂, v) :: l) = (k₂, v) :: eraseK k l from by simp [eraseK, hk]] at h
      rcases List.mem_cons.mp h with h | h
      · exact h ▸ List.mem_cons_self _ _
      · exact List.mem_cons_of_mem _ (ih h)

theorem mem_keys_eraseK_of_ne {K V : Type} [DecidableEq K] {j k : K} {l : List (K × V)}
    (hne : j ≠ k) (h : j ∈ keysOf l) : j ∈ keysOf (eraseK k l) := by
  induction l with
  | nil => simpa [keysOf] using h
  | cons p l ih =>
    obtain ⟨k₂, v⟩ := p
    by_cases hk : k₂ = k
    · rw [show eraseK k ((k₂, v) :: l) = eraseK k l from by simp [eraseK, hk]]
      rcases List.mem_cons.mp h with h | h
      · exact absurd (h ▸ hk) hne
      · exact ih h
    · rw [show eraseK k ((k₂, v) :: l) = (k₂, v) :: eraseK k l from by simp [eraseK, hk]]
      rcases List.mem_cons.mp h with h | h
      · exact h ▸ List.mem_cons_self _ _
      · exact List.mem_cons_of_mem _ (ih h)

theorem not_mem_keys_eraseK_self {K V : Type} [DecidableEq K] (k : K) (l : List (K × V)) :
    k ∉ keysOf (eraseK k l) := by
  induction l with
  | nil => simp [eraseK, keysOf]
  | cons p l ih =>
    obtain ⟨k₂, v⟩ := p
    by_cases hk : k₂ = k
    · rw [show eraseK k ((k₂, v) :: l) = eraseK k l from by simp [eraseK, hk]]
      exact ih
    · rw [show eraseK k ((k₂, v) :: l) = (k₂, v) :: eraseK k l from by simp [eraseK, hk]]
      intro h
      rcases List.mem_cons.mp h with h | h
      · exact hk h.symm
      · exact ih h

theorem nodup_keys_eraseK {K V : Type} [DecidableEq K] (k : K) {l : List (K × V)}
    (h : (keysOf l).Nodup) : (keysOf (eraseK k l)).Nodup := by
  induction l with
  | nil => simpa [eraseK, keysOf] using h
  | cons p l ih =>
    obtain ⟨k₂, v⟩ := p
    have h₂ : (keysOf l).Nodup := (List.nodup_cons.mp h).2
    have h₁ : k₂ ∉ keysOf l := (List.nodup_cons.mp h).1
    by_cases hk : k₂ = k
    · rw [show eraseK k ((k₂, v) :: l) = eraseK k l from by simp [eraseK, hk]]
      exact ih h₂
    · rw [show eraseK k ((k₂, v) :: l) = (k₂, v) :: eraseK k l from by simp [eraseK, hk]]
      exact List.nodup_cons.mpr ⟨fun hmem => h₁ (mem_keys_eraseK hmem), ih h₂⟩

theorem nodup_keys_insertK {K V : Type} [DecidableEq K] (k : K) (v : V) {l : List (K × V)}
    (h : (keysOf l).Nodup) : (keysOf (insertK k v l)).Nodup := by
  rw [keysOf_insertK]
  exact List.nodup_cons.mpr ⟨not_mem_keys_eraseK_self k l, nodup_keys_eraseK k h⟩

theorem mem_keys_insertK_iff {K V : Type} [DecidableEq K] (j k : K) (v : V) (l : List (K × V)) :
    j ∈ keysOf (insertK k v l) ↔ j = k ∨ j ∈ keysOf l := by
  rw [keysOf_insertK]
  constructor
  · intro h
    rcases List.mem_cons.mp h with h | h
    · exact Or.inl h
    · exact Or.inr (mem_keys_eraseK h)
  · intro h
    rcases h with h | h
    · exact h ▸ List.mem_cons_self _ _
    · by_cases hjk : j = k
      · exact hjk ▸ List.mem_cons_self _ _
      · exact List.mem_cons_of_mem _ (mem_keys_eraseK_of_ne hjk h)

theorem containsK_insertK_iff {K V : Type} [DecidableEq K] (j k : K) (v : V) (l : List (K × V)) :
    containsK j (insertK k v l) = true ↔ j = k ∨ containsK j l = true := by
  rw [containsK_iff_mem_keys, mem_keys_insertK_iff, containsK_iff_mem_keys]

@[simp] theorem CellID.num_input (i : InputCellID) : (CellID.Input i).num = i.id := rfl

@[simp] theorem CellID.num_compute (c : ComputeCellID) : (CellID.Compute c).num = c.id := rfl

theorem entryOrDefault_of_not_contains {K V : Type} [DecidableEq K] [Inhabited V] {k : K}
    {l : List (K × V)} (h : containsK k l = false) :
    entryOrDefault k l = insertK k default l := by
  simp [entryOrDefault, h]

theorem reaches_stays {g : List (CellID × List CellID)} {S : List CellID}
    (hS : ∀ x ∈ S, ∀ deps, lookupK x g = some deps → ∀ d ∈ deps, d ∈ S)
    {x y : CellID} (h : Reaches g x y) (hx : x ∈ S) : y ∈ S := by
  induction h using Relation.ReflTransGen.head_induction_on with
  | refl => exact hx
  | head hstep _ ih =>
    obtain ⟨deps, hdeps, hmem⟩ := hstep
    exact ih (hS _ hx _ hdeps _ hmem)

theorem dfsGo_false_not_reaches (g : List (CellID × List CellID)) (b : CellID) :
    ∀ stack seen : List CellID,
      (∀ x ∈ seen, x ≠ b) →
      (∀ x ∈ seen, ∀ deps, lookupK x g = some deps → ∀ d ∈ deps, d ∈ stack ∨ d ∈ seen) →
      dfsGo g b stack seen = false →
      ∀ x, (x ∈ stack ∨ x ∈ seen) → ¬ Reaches g x b := by
  intro stack seen
  induction stack, seen using dfsGo.induct g b with
  | case1 seen =>
    intro hne hclosed _ x hx hreach
    have hS : ∀ x ∈ seen, ∀ deps, lookupK x g = some deps → ∀ d ∈ deps, d ∈ seen := by
      intro z hz deps hdeps d hd
      rcases hclosed z hz deps hdeps d hd with h | h
      · cases h
      · exact h
    rcases hx with hx | hx
    · cases hx
    · exact hne b (reaches_stays hS hreach hx) rfl
  | case2 rest seen =>
    intro _ _ hfalse
    rw [dfsGo] at hfalse
    simp at hfalse
  | case3 node rest seen hnb hseen ih =>
    intro hne hclosed hfalse x hx
    rw [dfsGo, if_neg hnb, dif_pos hseen] at hfalse
    have hclosed₂ : ∀ x ∈ seen, ∀ deps, lookupK x g = some deps →
        ∀ d ∈ deps, d ∈ rest ∨ d ∈ seen := by
      intro z hz deps hdeps d hd
      rcases hclosed z hz deps hdeps d hd with h | h
      · rcases List.mem_cons.mp h with h | h
        · exact Or.inr (h ▸ hseen)
        · exact Or.inl h
      · exact Or.inr h
    rcases hx with hx | hx
    · rcases List.mem_cons.mp hx with hx | hx
      · exact ih hne hclosed₂ hfalse x (Or.inr (hx ▸ hseen))
      · exact ih hne hclosed₂ hfalse x (Or.inl hx)
    · exact ih hne hclosed₂ hfalse x (Or.inr hx)
  | case4 node rest seen hnb hseen deps hdep ih =>
    intro hne hclosed hfalse x hx
    rw [dfsGo, if_neg hnb, dif_neg hseen, hdep] at hfalse
    have hne₂ : ∀ x ∈ node :: seen, x ≠ b := by
      intro z hz
      rcases List.mem_cons.mp hz with h | h
      · exact h ▸ hnb
      · exact hne z h
    have hclosed₂ : ∀ x ∈ node :: seen, ∀ deps₂, lookupK x g = some deps₂ →
        ∀ d ∈ deps₂, d ∈ deps.reverse ++ rest ∨ d ∈ node :: seen := by
      intro z hz deps₂ hdeps₂ d hd
      rcases List.mem_cons.mp hz with h | h
      · subst h
        rw [hdep] at hdeps₂
        cases hdeps₂
        exact Or.inl (List.mem_append.mpr (Or.inl (List.mem_reverse.mpr hd)))
      · rcases hclosed z h deps₂ hdeps₂ d hd with h₂ | h₂
        · rcases List.mem_cons.mp h₂ with h₂ | h₂
          · exact Or.inr (h₂ ▸ List.mem_cons_self _ _)
          · exact Or.inl (List.mem_append.mpr (Or.inr h₂))
        · exact Or.inr (List.mem_cons_of_mem _ h₂)
    rcases hx with hx | hx
    · rcases List.mem_cons.mp hx with hx | hx
      · exact ih hne₂ hclosed₂ hfalse x (Or.inr (hx ▸ List.mem_cons_self _ _))
      · exact ih hne₂ hclosed₂ hfalse x (Or.inl (List.mem_append.mpr (Or.inr hx)))
    · exact ih hne₂ hclosed₂ hfalse x (Or.inr (List.mem_cons_of_mem _ hx))
  | case5 node rest seen hnb hseen hdep ih =>
    intro hne hclosed hfalse x hx
    rw [dfsGo, if_neg hnb, dif_neg hseen, hdep] at hfalse
    have hne₂ : ∀ x ∈ node :: seen, x ≠ b := by
      intro z hz
      rcases List.mem_cons.mp hz with h | h
      · exact h ▸ hnb
      · exact hne z h
    have hclosed₂ : ∀ x ∈ node :: seen, ∀ deps₂, lookupK x g = some deps₂ →
        ∀ d ∈ deps₂, d ∈ rest ∨ d ∈ node :: seen := by
      intro z hz deps₂ hdeps₂ d hd
      rcases List.mem_cons.mp hz with h | h
      · subst h
        rw [hdep] at hdeps₂
        cases hdeps₂
      · rcases hclosed z h deps₂ hdeps₂ d hd with h₂ | h₂
        · rcases List.mem_cons.mp h₂ with h₂ | h₂
          · exact Or.inr (h₂ ▸ List.mem_cons_self _ _)
          · exact Or.inl h₂
        · exact Or.inr (List.mem_cons_of_mem _ h₂)
    rcases hx with hx | hx
    · rcases List.mem_cons.mp hx with hx | hx
      · exact ih hne₂ hclosed₂ hfalse x (Or.inr (hx ▸ List.mem_cons_self _ _))
      · exact ih hne₂ hclosed₂ hfalse x (Or.inl hx)
    · exact ih hne₂ hclosed₂ hfalse x (Or.inr (List.mem_cons_of_mem _ hx))

/-- Soundness of the `depends_on` DFS in the direction `set_value` needs:
a `false` answer means there is no dependency path at all. -/
theorem depends_on_false_not_reaches (r : Reactor T) (a c : CellID)
    (h : r.depends_on a c = false) : ¬ Reaches r.graph a c := by
  have := dfsGo_false_not_reaches r.graph c [a] []
    (by intro x hx; cases hx) (by intro x hx; cases hx) h a (Or.inl (List.mem_cons_self _ _))
  exact this

/-! ## Properties of value evaluation -/
theorem resolveDeps_congr {f f₂ : CellID → Option T} {deps : List CellID}
    (h : ∀ d ∈ deps, f d = f₂ d) : resolveDeps f deps = resolveDeps f₂ deps := by
  induction deps with
  | nil => rfl
  | cons d deps ih =>
    rw [resolveDeps, resolveDeps, h d (List.mem_cons_self _ _),
      ih (fun x hx => h x (List.mem_cons_of_mem _ hx))]

theorem resolveDeps_isSome {f : CellID → Option T} {deps : List CellID}
    (h : ∀ d ∈ deps, (f d).isSome) : ∃ vs, resolveDeps f deps = some vs := by
  induction deps with
  | nil => exact ⟨[], rfl⟩
  | cons d deps ih =>
    obtain ⟨v, hv⟩ := Option.isSome_iff_exists.mp (h d (List.mem_cons_self _ _))
    obtain ⟨vs, hvs⟩ := ih (fun x hx => h x (List.mem_cons_of_mem _ hx))
    exact ⟨v :: vs, by rw [resolveDeps, hv, hvs]; rfl⟩

theorem valueFuel_succ_input (n : Nat) (r : Reactor T) (j : InputCellID) :
    valueFuel (n + 1) r (CellID.Input j) = lookupK j r.input_values := rfl

theorem valueFuel_succ_compute (n : Nat) (r : Reactor T) (c : ComputeCellID) :
    valueFuel (n + 1) r (CellID.Compute c) =
      (lookupK c r.compute_cell_funcs).bind fun func =>
        (resolveDeps (valueFuel n r) ((lookupK (CellID.Compute c) r.graph).getD [])).map func :=
  rfl

@[simp] theorem setInputs_graph (r : Reactor T) (l : List (InputCellID × T)) :
    ({ r with input_values := l } : Reactor T).graph = r.graph := rfl

@[simp] theorem setInputs_funcs (r : Reactor T) (l : List (InputCellID × T)) :
    ({ r with input_values := l } : Reactor T).compute_cell_funcs = r.compute_cell_funcs := rfl

@[simp] theorem setInputs_callbacks (r : Reactor T) (l : List (InputCellID × T)) :
    ({ r with input_values := l } : Reactor T).callbacks = r.callbacks := rfl

@[simp] theorem setInputs_inputs (r : Reactor T) (l : List (InputCellID × T)) :
    ({ r with input_values := l } : Reactor T).input_values = l := rfl

/-- Writing an input cell that a cell does not (transitively) depend on
leaves that cell's value unchanged, at every recursion depth. -/
theorem valueFuel_insert_input (r : Reactor T) (i : InputCellID) (v : T) :
    ∀ (n : Nat) (a : CellID), ¬ Reaches r.graph a (CellID.Input i) →
      valueFuel n { r with input_values := insertK i v r.input_values } a =
        valueFuel n r a := by
  intro n
  induction n with
  | zero => intro a _; rfl
  | succ n ih =>
    intro a hnr
    match a with
    | .Input j =>
      have hij : j ≠ i := by
        intro h
        exact hnr (h ▸ Relation.ReflTransGen.refl)
      rw [valueFuel_succ_input, valueFuel_succ_input, setInputs_inputs]
      exact lookupK_insertK_ne hij v r.input_values
    | .Compute c =>
      rw [valueFuel_succ_compute, valueFuel_succ_compute, setInputs_funcs, setInputs_graph]
      have hdeps : resolveDeps (valueFuel n { r with input_values := insertK i v r.input_values })
          ((lookupK (CellID.Compute c) r.graph).getD []) =
          resolveDeps (valueFuel n r) ((lookupK (CellID.Compute c) r.graph).getD []) := by
        apply resolveDeps_congr
        intro d hd
        apply ih
        intro hreach
        apply hnr
        cases hg : lookupK (CellID.Compute c) r.graph with
        | none => rw [hg] at hd; cases hd
        | some deps =>
          rw [hg] at hd
          exact Relation.ReflTransGen.head ⟨deps, hg, hd⟩ hreach
      rw [hdeps]

/-- In a well-ranked reactor the fueled evaluation stabilises: any fuel
exceeding the cell's rank gives the same answer. -/
theorem valueFuel_stable {r : Reactor T} (hr : WellRanked r.graph) :
    ∀ (k : Nat) (id : CellID), id.num ≤ k → ∀ n m : Nat, id.num < n → id.num < m →
      valueFuel n r id = valueFuel m r id := by
  intro k
  induction k with
  | zero =>
    intro id hid n m hn hm
    obtain ⟨n₂, rfl⟩ := Nat.exists_eq_add_of_lt hn
    obtain ⟨m₂, rfl⟩ := Nat.exists_eq_add_of_lt hm
    match id with
    | .Input j => rfl
    | .Compute c =>
      rw [valueFuel_succ_compute, valueFuel_succ_compute]
      have hdeps : resolveDeps (valueFuel (CellID.num (CellID.Compute c) + n₂) r)
          ((lookupK (CellID.Compute c) r.graph).getD []) =
          resolveDeps (valueFuel (CellID.num (CellID.Compute c) + m₂) r)
            ((lookupK (CellID.Compute c) r.graph).getD []) := by
        apply resolveDeps_congr
        intro d hd
        cases hg : lookupK (CellID.Compute c) r.graph with
        | none => rw [hg] at hd; cases hd
        | some deps =>
          rw [hg] at hd
          exact absurd (hr _ _ hg d hd) (by omega)
      rw [hdeps]
  | succ k ih =>
    intro id hid n m hn hm
    obtain ⟨n₂, rfl⟩ := Nat.exists_eq_add_of_lt hn
    obtain ⟨m₂, rfl⟩ := Nat.exists_eq_add_of_lt hm
    match id with
    | .Input j => rfl
    | .Compute c =>
      rw [valueFuel_succ_compute, valueFuel_succ_compute]
      have hdeps : resolveDeps (valueFuel (CellID.num (CellID.Compute c) + n₂) r)
          ((lookupK (CellID.Compute c) r.graph).getD []) =
          resolveDeps (valueFuel (CellID.num (CellID.Compute c) + m₂) r)
            ((lookupK (CellID.Compute c) r.graph).getD []) := by
        apply resolveDeps_congr
        intro d hd
        cases hg : lookupK (CellID.Compute c) r.graph with
        | none => rw [hg] at hd; cases hd
        | some deps =>
          rw [hg] at hd
          have hrank : d.num < CellID.num (CellID.Compute c) := hr _ _ hg d hd
          exact ih d (by omega) _ _ (by omega) (by omega)
      rw [hdeps]

/-- In a well-ranked reactor, `value` agrees with `valueFuel` at any
sufficient fuel. -/
theorem value_eq_valueFuel {r : Reactor T} (hr : WellRanked r.graph)
    (id : CellID) (n : Nat) (hn : id.num < n) :
    r.value id = valueFuel n r id :=
  valueFuel_stable hr id.num id (Nat.le_refl _) _ _ (Nat.lt_succ_self _) hn

theorem inv_initial (n : Nat) : Inv (⟨n, Reactor.new T⟩ : Sys T) where
  funcs_keys_nodup := List.nodup_nil
  graph_keys_lt := by intro u hu; cases hu
  ranked := by intro u deps h; cases h
  closed := by intro u deps h; cases h
  input_iff := by intro i; simp [Reactor.new, keysOf, containsK]
  compute_iff := by intro c; simp [Reactor.new, keysOf, containsK]
  cb_cells := by intro c hc; cases hc
  cb_reg_nodup := by intro c reg h; cases h
  cb_disjoint := by intro c₁ c₂ reg₁ reg₂ k h; cases h
  cb_ids_lt := by intro c reg h; cases h

theorem inv_create_input {s : Sys T} (hInv : Inv s) (v : T) :
    Inv ⟨(s.reactor.create_input s.ctr v).2.1, (s.reactor.create_input s.ctr v).1⟩ := by
  obtain ⟨hfn, hlt, hrk, hcl, hin, hco, hcbc, hcbn, hcbd, hcbl⟩ := hInv
  have hfresh : containsK (CellID.Input ⟨s.ctr⟩) s.reactor.graph = false := by
    cases h : containsK (CellID.Input ⟨s.ctr⟩) s.reactor.graph with
    | false => rfl
    | true =>
      have := hlt _ ((containsK_iff_mem_keys _ _).mp h)
      simp [CellID.num] at this
  have hstep : (s.reactor.create_input s.ctr v).1 =
      { s.reactor with
          graph := insertK (CellID.Input ⟨s.ctr⟩) [] s.reactor.graph,
          input_values := insertK ⟨s.ctr⟩ v s.reactor.input_values } := by
    rw [Reactor.create_input]
    rw [entryOrDefault_of_not_contains hfresh]
    rfl
  rw [hstep, Reactor.create_input]
  constructor
  · exact hfn
  · intro u hu
    rcases (mem_keys_insertK_iff _ _ _ _).mp hu with h | h
    · subst h; simp [CellID.num]
    · exact Nat.lt_succ_of_lt (hlt u h)
  · intro u deps h d hd
    rw [lookupK_insertK] at h
    by_cases hu : u = CellID.Input ⟨s.ctr⟩
    · rw [if_pos hu] at h
      cases h
      cases hd
    · rw [if_neg hu] at h
      exact hrk u deps h d hd
  · intro u deps h d hd
    rw [lookupK_insertK] at h
    by_cases hu : u = CellID.Input ⟨s.ctr⟩
    · rw [if_pos hu] at h
      cases h
      cases hd
    · rw [if_neg hu] at h
      exact (mem_keys_insertK_iff _ _ _ _).mpr (Or.inr (hcl u deps h d hd))
  · intro i
    rw [mem_keys_insertK_iff, containsK_insertK_iff]
    constructor
    · intro h
      rcases h with h | h
      · exact Or.inl (CellID.Input.injEq _ _ ▸ h ▸ rfl)
      · exact Or.inr ((hin i).mp h)
    · intro h
      rcases h with h | h
      · exact Or.inl (h ▸ rfl)
      · exact Or.inr ((hin i).mpr h)
  · intro c
    have hne : CellID.Compute c ≠ CellID.Input ⟨s.ctr⟩ := fun h => by cases h
    rw [mem_keys_insertK_iff]
    constructor
    · intro h
      rcases h with h | h
      · exact absurd h hne
      · exact (hco c).mp h
    · intro h
      exact Or.inr ((hco c).mpr h)
  · exact hcbc
  · exact hcbn
  · exact hcbd
  · intro c reg h k hk
    exact Nat.lt_succ_of_lt (hcbl c reg h k hk)

theorem inv_create_compute {s : Sys T} (hInv : Inv s) (deps : List CellID)
    (f : List T → T) :
    Inv ⟨(s.reactor.create_compute s.ctr deps f).2.1,
         (s.reactor.create_compute s.ctr deps f).1⟩ := by
  obtain ⟨hfn, hlt, hrk, hcl, hin, hco, hcbc, hcbn, hcbd, hcbl⟩ := hInv
  rw [Reactor.create_compute]
  cases hfind : deps.find? (fun dep => ¬ containsK dep s.reactor.graph) with
  | some d =>
    exact ⟨hfn, hlt, hrk, hcl, hin, hco, hcbc, hcbn, hcbd, hcbl⟩
  | none =>
    have hall : ∀ d ∈ deps, containsK d s.reactor.graph = true := by
      intro d hd
      have := List.find?_eq_none.mp hfind d hd
      simpa using this
    constructor
    · exact nodup_keys_insertK _ _ hfn
    · intro u hu
      rcases (mem_keys_insertK_iff _ _ _ _).mp hu with h | h
      · subst h; simp [CellID.num]
      · exact Nat.lt_succ_of_lt (hlt u h)
    · intro u deps₂ h d hd
      rw [lookupK_insertK] at h
      by_cases hu : u = CellID.Compute ⟨s.ctr⟩
      · rw [if_pos hu] at h
        cases h
        subst hu
        have := hlt d ((containsK_iff_mem_keys _ _).mp (hall d hd))
        simpa [CellID.num] using this
      · rw [if_neg hu] at h
        exact hrk u deps₂ h d hd
    · intro u deps₂ h d hd
      rw [lookupK_insertK] at h
      by_cases hu : u = CellID.Compute ⟨s.ctr⟩
      · rw [if_pos hu] at h
        cases h
        exact (mem_keys_insertK_iff _ _ _ _).mpr
          (Or.inr ((containsK_iff_mem_keys _ _).mp (hall d hd)))
      · rw [if_neg hu] at h
        exact (mem_keys_insertK_iff _ _ _ _).mpr (Or.inr (hcl u deps₂ h d hd))
    · intro i
      have hne : CellID.Input i ≠ CellID.Compute ⟨s.ctr⟩ := fun h => by cases h
      rw [mem_keys_insertK_iff]
      constructor
      · intro h
        rcases h with h | h
        · exact absurd h hne
        · exact (hin i).mp h
      · intro h
        exact Or.inr ((hin i).mpr h)
    · intro c
      rw [mem_keys_insertK_iff, containsK_insertK_iff]
      constructor
      · intro h
        rcases h with h | h
        · exact Or.inl (CellID.Compute.injEq _ _ ▸ h ▸ rfl)
        · exact Or.inr ((hco c).mp h)
      · intro h
        rcases h with h | h
        · exact Or.inl (h ▸ rfl)
        · exact Or.inr ((hco c).mpr h)
    · intro c hc
      exact (containsK_insertK_iff _ _ _ _).mpr (Or.inr (hcbc c hc))
    · exact hcbn
    · exact hcbd
    · intro c reg h k hk
      exact Nat.lt_succ_of_lt (hcbl c reg h k hk)

theorem set_value_reactor (r : Reactor T) (id : InputCellID) (v : T) :
    (r.set_value id v).1 =
      if containsK id r.input_values
      then { r with input_values := insertK id v r.input_values }
      else r := by
  rw [Reactor.set_value]
  by_cases h : containsK id r.input_values <;> simp [h]

theorem inv_set_value {s : Sys T} (hInv : Inv s) (id : InputCellID) (v : T) :
    Inv ⟨s.ctr, (s.reactor.set_value id v).1⟩ := by
  obtain ⟨hfn, hlt, hrk, hcl, hin, hco, hcbc, hcbn, hcbd, hcbl⟩ := hInv
  rw [set_value_reactor]
  by_cases h : containsK id s.reactor.input_values
  · rw [if_pos h]
    refine ⟨hfn, hlt, hrk, hcl, ?_, hco, hcbc, hcbn, hcbd, hcbl⟩
    intro i
    show CellID.Input i ∈ keysOf s.reactor.graph ↔
      containsK i (insertK id v s.reactor.input_values) = true
    rw [containsK_insertK_iff]
    constructor
    · intro hmem
      exact Or.inr ((hin i).mp hmem)
    · intro hmem
      rcases hmem with hmem | hmem
      · exact (hin i).mpr (hmem ▸ h)
      · exact (hin i).mpr hmem
  · rw [if_neg h]
    exact ⟨hfn, hlt, hrk, hcl, hin, hco, hcbc, hcbn, hcbd, hcbl⟩

theorem inv_add_callback {s : Sys T} (hInv : Inv s) (c : ComputeCellID) :
    Inv ⟨(s.reactor.add_callback s.ctr c).2.1, (s.reactor.add_callback s.ctr c).1⟩ := by
  obtain ⟨hfn, hlt, hrk, hcl, hin, hco, hcbc, hcbn, hcbd, hcbl⟩ := hInv
  by_cases h : containsK c s.reactor.compute_cell_funcs
  · have hstep : (s.reactor.add_callback s.ctr c).1 = { s.reactor with callbacks := insertK c (List.insert (⟨s.ctr⟩ : CallbackID) ((lookupK c s.reactor.callbacks).getD [])) s.reactor.callbacks } := by
      rw [Reactor.add_callback, if_pos h]
    have hctr : (s.reactor.add_callback s.ctr c).2.1 = s.ctr + 1 := by
      rw [Reactor.add_callback, if_pos h]
    rw [hstep, hctr]
    refine ⟨hfn, fun u hu => Nat.lt_succ_of_lt (hlt u hu), hrk, hcl, hin, hco, ?_, ?_, ?_, ?_⟩
    · intro c₂ hc₂
      rcases (mem_keys_insertK_iff _ _ _ _).mp hc₂ with h₂ | h₂
      · exact h₂ ▸ h
      · exact hcbc c₂ h₂
    · intro c₂ reg₂ hreg₂
      rw [lookupK_insertK] at hreg₂
      by_cases hcc : c₂ = c
      · rw [if_pos hcc] at hreg₂
        cases hreg₂
        cases hrc : lookupK c s.reactor.callbacks with
        | none => exact List.Nodup.insert List.nodup_nil
        | some reg₀ => exact List.Nodup.insert (hcbn c reg₀ hrc)
      · rw [if_neg hcc] at hreg₂
        exact hcbn c₂ reg₂ hreg₂
    · intro c₁ c₂ reg₁ reg₂ k hreg₁ hreg₂ hk₁ hk₂
      rw [lookupK_insertK] at hreg₁ hreg₂
      have hold : ∀ c₃ reg₃, (if c₃ = c
            then some (List.insert (⟨s.ctr⟩ : CallbackID) ((lookupK c s.reactor.callbacks).getD []))
            else lookupK c₃ s.reactor.callbacks) = some reg₃ → k ∈ reg₃ →
          c₃ = c ∨ (k.id < s.ctr ∧ lookupK c₃ s.reactor.callbacks = some reg₃ ∧ k ∈ reg₃) := by
        intro c₃ reg₃ hreg₃ hk₃
        by_cases hcc : c₃ = c
        · exact Or.inl hcc
        · rw [if_neg hcc] at hreg₃
          exact Or.inr ⟨hcbl c₃ reg₃ hreg₃ k hk₃, hreg₃, hk₃⟩
      by_cases hk : k = (⟨s.ctr⟩ : CallbackID)
      · subst hk
        rcases hold c₁ reg₁ hreg₁ hk₁ with h₁ | h₁
        · rcases hold c₂ reg₂ hreg₂ hk₂ with h₂ | h₂
          · exact h₁.trans h₂.symm
          · exact absurd h₂.1 (by simp)
        · exact absurd h₁.1 (by simp)
      · have hmem : ∀ c₃ reg₃, (if c₃ = c
              then some (List.insert (⟨s.ctr⟩ : CallbackID) ((lookupK c s.reactor.callbacks).getD []))
              else lookupK c₃ s.reactor.callbacks) = some reg₃ → k ∈ reg₃ →
            ∃ reg₀, lookupK c₃ s.reactor.callbacks = some reg₀ ∧ k ∈ reg₀ := by
          intro c₃ reg₃ hreg₃ hk₃
          by_cases hcc : c₃ = c
          · rw [if_pos hcc] at hreg₃
            cases hreg₃
            subst hcc
            rcases List.mem_insert_iff.mp hk₃ with h₃ | h₃
            · exact absurd h₃ hk
            · cases hrc : lookupK c₃ s.reactor.callbacks with
              | none => rw [hrc] at h₃; cases h₃
              | some reg₀ =>
                rw [hrc] at h₃
                exact ⟨reg₀, rfl, h₃⟩
          · rw [if_neg hcc] at hreg₃
            exact ⟨reg₃, hreg₃, hk₃⟩
        obtain ⟨reg₁₀, hreg₁₀, hk₁₀⟩ := hmem c₁ reg₁ hreg₁ hk₁
        obtain ⟨reg₂₀, hreg₂₀, hk₂₀⟩ := hmem c₂ reg₂ hreg₂ hk₂
        exact hcbd c₁ c₂ reg₁₀ reg₂₀ k hreg₁₀ hreg₂₀ hk₁₀ hk₂₀
    · intro c₂ reg₂ hreg₂ k hk
      rw [lookupK_insertK] at hreg₂
      by_cases hcc : c₂ = c
      · rw [if_pos hcc] at hreg₂
        cases hreg₂
        rcases List.mem_insert_iff.mp hk with h₂ | h₂
        · subst h₂; simp
        · cases hrc : lookupK c s.reactor.callbacks with
          | none => rw [hrc] at h₂; cases h₂
          | some reg₀ =>
            rw [hrc] at h₂
            exact Nat.lt_succ_of_lt (hcbl c reg₀ hrc k h₂)
      · rw [if_neg hcc] at hreg₂
        exact Nat.lt_succ_of_lt (hcbl c₂ reg₂ hreg₂ k hk)
  · have hstep : (s.reactor.add_callback s.ctr c).1 = s.reactor := by
      rw [Reactor.add_callback, if_neg h]
    have hctr : (s.reactor.add_callback s.ctr c).2.1 = s.ctr := by
      rw [Reactor.add_callback, if_neg h]
    rw [hstep, hctr]
    exact ⟨hfn, hlt, hrk, hcl, hin, hco, hcbc, hcbn, hcbd, hcbl⟩

theorem inv_remove_callback {s : Sys T} (hInv : Inv s) (c : ComputeCellID)
    (k : CallbackID) :
    Inv ⟨s.ctr, (s.reactor.remove_callback c k).1⟩ := by
  obtain ⟨hfn, hlt, hrk, hcl, hin, hco, hcbc, hcbn, hcbd, hcbl⟩ := hInv
  cases hrc : lookupK c s.reactor.callbacks with
  | none =>
    have hstep : (s.reactor.remove_callback c k).1 = s.reactor := by
      simp [Reactor.remove_callback, hrc]
    rw [hstep]
    exact ⟨hfn, hlt, hrk, hcl, hin, hco, hcbc, hcbn, hcbd, hcbl⟩
  | some reg =>
    by_cases hk : k ∈ reg
    · have hstep : (s.reactor.remove_callback c k).1 =
          { s.reactor with callbacks := insertK c (reg.erase k) s.reactor.callbacks } := by
        simp [Reactor.remove_callback, hrc, hk]
      rw [hstep]
      refine ⟨hfn, hlt, hrk, hcl, hin, hco, ?_, ?_, ?_, ?_⟩
      · intro c₂ hc₂
        rcases (mem_keys_insertK_iff _ _ _ _).mp hc₂ with h₂ | h₂
        · exact h₂ ▸ hcbc c (lookupK_mem_keys hrc)
        · exact hcbc c₂ h₂
      · intro c₂ reg₂ hreg₂
        rw [lookupK_insertK] at hreg₂
        by_cases hcc : c₂ = c
        · rw [if_pos hcc] at hreg₂
          cases hreg₂
          exact (hcbn c reg hrc).erase k
        · rw [if_neg hcc] at hreg₂
          exact hcbn c₂ reg₂ hreg₂
      · intro c₁ c₂ reg₁ reg₂ k₂ hreg₁ hreg₂ hk₁ hk₂
        rw [lookupK_insertK] at hreg₁ hreg₂
        have hsub : ∀ c₃ reg₃, (if c₃ = c then some (reg.erase k)
              else lookupK c₃ s.reactor.callbacks) = some reg₃ → k₂ ∈ reg₃ →
            ∃ reg₀, lookupK c₃ s.reactor.callbacks = some reg₀ ∧ k₂ ∈ reg₀ := by
          intro c₃ reg₃ hreg₃ hk₃
          by_cases hcc : c₃ = c
          · rw [if_pos hcc] at hreg₃
            cases hreg₃
            exact ⟨reg, hcc ▸ hrc, List.mem_of_mem_erase hk₃⟩
          · rw [if_neg hcc] at hreg₃
            exact ⟨reg₃, hreg₃, hk₃⟩
        obtain ⟨reg₁₀, hreg₁₀, hk₁₀⟩ := hsub c₁ reg₁ hreg₁ hk₁
        obtain ⟨reg₂₀, hreg₂₀, hk₂₀⟩ := hsub c₂ reg₂ hreg₂ hk₂
        exact hcbd c₁ c₂ reg₁₀ reg₂₀ k₂ hreg₁₀ hreg₂₀ hk₁₀ hk₂₀
      · intro c₂ reg₂ hreg₂ k₂ hk₂
        rw [lookupK_insertK] at hreg₂
        by_cases hcc : c₂ = c
        · rw [if_pos hcc] at hreg₂
          cases hreg₂
          exact hcbl c reg hrc k₂ (List.mem_of_mem_erase hk₂)
        · rw [if_neg hcc] at hreg₂
          exact hcbl c₂ reg₂ hreg₂ k₂ hk₂
    · have hstep : (s.reactor.remove_callback c k).1 = s.reactor := by
        simp [Reactor.remove_callback, hrc, hk]
      rw [hstep]
      exact ⟨hfn, hlt, hrk, hcl, hin, hco, hcbc, hcbn, hcbd, hcbl⟩

/-- The invariant is preserved by every public operation. -/
theorem inv_applyOp {s : Sys T} (hInv : Inv s) (op : Op T) : Inv (applyOp s op).1 := by
  cases op with
  | createInput v => exact inv_create_input hInv v
  | createCompute deps f => exact inv_create_compute hInv deps f
  | setValue i v => exact inv_set_value hInv i v
  | addCallback c => exact inv_add_callback hInv c
  | removeCallback c k => exact inv_remove_callback hInv c k

theorem inv_runOps {s : Sys T} (hInv : Inv s) (ops : List (Op T)) :
    Inv (runOps s ops).1 := by
  induction ops generalizing s with
  | nil => exact hInv
  | cons op ops ih => exact ih (inv_applyOp hInv op)

/-- Every reachable system state satisfies the invariant. -/
theorem inv_of_reachable {s : Sys T} (h : Reachable s) : Inv s := by
  obtain ⟨n, ops, rfl⟩ := h
  exact inv_runOps (inv_initial n) ops

/-! ## All existing cells resolve -/
theorem value_isSome_bounded {s : Sys T} (hInv : Inv s) :
    ∀ (b : Nat) (id : CellID), id.num ≤ b → id ∈ keysOf s.reactor.graph →
      (s.reactor.value id).isSome := by
  intro b
  induction b with
  | zero =>
    intro id hb hmem
    match id with
    | .Input i =>
      rw [Reactor.value, valueFuel_succ_input]
      exact (hInv.input_iff i).mp hmem
    | .Compute c =>
      have hfn : containsK c s.reactor.compute_cell_funcs = true := (hInv.compute_iff c).mp hmem
      obtain ⟨f, hf⟩ := Option.isSome_iff_exists.mp hfn
      obtain ⟨D, hD⟩ := Option.isSome_iff_exists.mp (lookupK_isSome_of_mem_keys hmem)
      have hempty : D = [] := by
        cases D with
        | nil => rfl
        | cons d D =>
          have h₂ : d.num < c.id := hInv.ranked _ _ hD d (List.mem_cons_self _ _)
          have hb₂ : c.id ≤ 0 := hb
          omega
      rw [Reactor.value, valueFuel_succ_compute, hf, hD, hempty]
      rfl
  | succ b ih =>
    intro id hb hmem
    match id with
    | .Input i =>
      rw [Reactor.value, valueFuel_succ_input]
      exact (hInv.input_iff i).mp hmem
    | .Compute c =>
      have hfn : containsK c s.reactor.compute_cell_funcs = true := (hInv.compute_iff c).mp hmem
      obtain ⟨f, hf⟩ := Option.isSome_iff_exists.mp hfn
      obtain ⟨D, hD⟩ := Option.isSome_iff_exists.mp (lookupK_isSome_of_mem_keys hmem)
      rw [Reactor.value, valueFuel_succ_compute, hf, hD]
      have hall : ∀ d ∈ D, (valueFuel (CellID.num (CellID.Compute c)) s.reactor d).isSome := by
        intro d hd
        have hrank : d.num < c.id := hInv.ranked _ _ hD d hd
        have hmem₂ : d ∈ keysOf s.reactor.graph := hInv.closed _ _ hD d hd
        have hb₂ : c.id ≤ b + 1 := hb
        have hv : (s.reactor.value d).isSome := ih d (by omega) hmem₂
        rw [value_eq_valueFuel hInv.ranked d (CellID.num (CellID.Compute c)) hrank] at hv
        exact hv
      obtain ⟨vs, hvs⟩ := resolveDeps_isSome hall
      rw [show ((some D).getD [] : List CellID) = D from rfl, hvs]
      rfl

/-- In every invariant-satisfying state, every cell present in the graph has
a resolvable value. -/
theorem value_isSome_of_inv {s : Sys T} (hInv : Inv s) (id : CellID)
    (hmem : id ∈ keysOf s.reactor.graph) : (s.reactor.value id).isSome :=
  value_isSome_bounded hInv id.num id (Nat.le_refl _) hmem

theorem exSys_reachable : Reachable exSys := ⟨0, exOps, rfl⟩

theorem find?_append_first {α : Type} {p : α → Bool} {pre post : List α} {d : α}
    (hpre : ∀ x ∈ pre, p x = false) (hd : p d = true) :
    (pre ++ d :: post).find? p = some d := by
  induction pre with
  | nil => simp [List.find?_cons_of_pos, hd]
  | cons a pre ih =>
    have ha : p a = false := hpre a (List.mem_cons_self _ _)
    rw [List.cons_append, List.find?_cons_of_neg _ (by simp [ha])]
    exact ih (fun x hx => hpre x (List.mem_cons_of_mem _ hx))

/-- **C1**: in every reachable state, the value of an existing compute cell
with dependency list `D` and stored function `f` is `some` of `f` applied to
the current values of the cells of `D`, resolved in the order `D` lists
them; the value of a nonexistent compute cell is `none`. -/
theorem c1_compute_cell_value {T : Type} [DecidableEq T] (s : Sys T) (hs : Reachable s)
    (c : ComputeCellID) :
    (∀ f, lookupK c s.reactor.compute_cell_funcs = some f →
      ∃ D vs, lookupK (CellID.Compute c) s.reactor.graph = some D ∧
        resolveDeps s.reactor.value D = some vs ∧
        s.reactor.value (CellID.Compute c) = some (f vs)) ∧
    (lookupK c s.reactor.compute_cell_funcs = none →
      s.reactor.value (CellID.Compute c) = none) := by
  have hInv := inv_of_reachable hs
  constructor
  · intro f hf
    have hck : containsK c s.reactor.compute_cell_funcs = true := by
      simp [containsK, hf]
    have hmem : CellID.Compute c ∈ keysOf s.reactor.graph := (hInv.compute_iff c).mpr hck
    obtain ⟨D, hD⟩ := Option.isSome_iff_exists.mp (lookupK_isSome_of_mem_keys hmem)
    have hres : resolveDeps (valueFuel c.id s.reactor) D = resolveDeps s.reactor.value D := by
      apply resolveDeps_congr
      intro d hd
      have hrank : d.num < c.id := hInv.ranked _ _ hD d hd
      exact (value_eq_valueFuel hInv.ranked d c.id hrank).symm
    have hsome : ∀ d ∈ D, (s.reactor.value d).isSome := by
      intro d hd
      exact value_isSome_of_inv hInv d (hInv.closed _ _ hD d hd)
    obtain ⟨vs, hvs⟩ := resolveDeps_isSome hsome
    refine ⟨D, vs, hD, hvs, ?_⟩
    rw [Reactor.value, show (CellID.Compute c).num + 1 = c.id + 1 from rfl,
      valueFuel_succ_compute, hf, hD]
    rw [show ((some D).getD [] : List CellID) = D from rfl, hres, hvs]
    rfl
  · intro hf
    rw [Reactor.value, show (CellID.Compute c).num + 1 = c.id + 1 from rfl,
      valueFuel_succ_compute, hf]
    rfl

/-- Witness for C1 at the concrete reachable system `exSys` and its compute
cell `⟨1⟩`. -/
theorem c1_compute_cell_value_witness :
    Reachable exSys ∧
    ((∀ f, lookupK (⟨1⟩ : ComputeCellID) exSys.reactor.compute_cell_funcs = some f →
      ∃ D vs, lookupK (CellID.Compute ⟨1⟩) exSys.reactor.graph = some D ∧
        resolveDeps exSys.reactor.value D = some vs ∧
        exSys.reactor.value (CellID.Compute ⟨1⟩) = some (f vs)) ∧
    (lookupK (⟨1⟩ : ComputeCellID) exSys.reactor.compute_cell_funcs = none →
      exSys.reactor.value (CellID.Compute ⟨1⟩) = none)) :=
  ⟨⟨0, exOps, rfl⟩, c1_compute_cell_value exSys ⟨0, exOps, rfl⟩ ⟨1⟩⟩

/-- **C3**: `set_value` on a nonexistent input cell returns `false` and
leaves everything unchanged (no value written, no callback fired); on an
existing input cell it returns `true` and stores the new value. -/
theorem c3_set_value_existence {T : Type} [DecidableEq T] (r : Reactor T)
    (id : InputCellID) (v : T) :
    (containsK id r.input_values = false → r.set_value id v = (r, false, [])) ∧
    (containsK id r.input_values = true →
      (r.set_value id v).2.1 = true ∧
      lookupK id (r.set_value id v).1.input_values = some v) := by
  constructor
  · intro h
    simp [Reactor.set_value, h]
  · intro h
    constructor
    · simp [Reactor.set_value, h]
    · rw [set_value_reactor, if_pos h, setInputs_inputs, lookupK_insertK_self]

/-- Witness for C3: mutating the nonexistent input `⟨9⟩` and the existing
input `⟨0⟩` of `exSys`. -/
theorem c3_set_value_existence_witness :
    (containsK (⟨9⟩ : InputCellID) exSys.reactor.input_values = false ∧
      exSys.reactor.set_value ⟨9⟩ 5 = (exSys.reactor, false, [])) ∧
    (containsK (⟨0⟩ : InputCellID) exSys.reactor.input_values = true ∧
      ((exSys.reactor.set_value ⟨0⟩ 5).2.1 = true ∧
        lookupK (⟨0⟩ : InputCellID) (exSys.reactor.set_value ⟨0⟩ 5).1.input_values =
          some 5)) :=
  ⟨⟨rfl, (c3_set_value_existence exSys.reactor ⟨9⟩ 5).1 rfl⟩,
   ⟨rfl, (c3_set_value_existence exSys.reactor ⟨0⟩ 5).2 rfl⟩⟩

/-- **C4**: `create_compute` checks dependencies in order and fails on the
first missing one, returning it, leaving state and counter unchanged (so no
cell is registered); on success the new cell's graph edges are exactly the
dependency list; and `value` of any unregistered compute-cell ID is `none`. -/
theorem c4_create_compute_validation {T : Type} [DecidableEq T] (r : Reactor T)
    (ctr : Nat) (deps : List CellID) (f : List T → T) :
    (∀ pre d post, deps = pre ++ d :: post →
      (∀ x ∈ pre, containsK x r.graph = true) → containsK d r.graph = false →
      r.create_compute ctr deps f = (r, ctr, .error d)) ∧
    ((∀ d ∈ deps, containsK d r.graph = true) →
      ∃ cid : ComputeCellID,
        (r.create_compute ctr deps f).2.2 = .ok cid ∧
        lookupK (CellID.Compute cid) (r.create_compute ctr deps f).1.graph = some deps) ∧
    (∀ c : ComputeCellID, containsK c r.compute_cell_funcs = false →
      r.value (CellID.Compute c) = none) := by
  refine ⟨?_, ?_, ?_⟩
  · intro pre d post hsplit hpre hd
    have hfind : deps.find? (fun dep => ¬ containsK dep r.graph) = some d := by
      rw [hsplit]
      apply find?_append_first
      · intro x hx
        simp [hpre x hx]
      · simp [hd]
    rw [Reactor.create_compute, hfind]
  · intro hall
    have hfind : deps.find? (fun dep => ¬ containsK dep r.graph) = none := by
      apply List.find?_eq_none.mpr
      intro x hx
      simp [hall x hx]
    refine ⟨⟨ctr⟩, ?_, ?_⟩
    · rw [Reactor.create_compute, hfind]
    · rw [Reactor.create_compute, hfind]
      exact lookupK_insertK_self _ _ _
  · intro c hc
    rw [Reactor.value, show (CellID.Compute c).num + 1 = c.id + 1 from rfl,
      valueFuel_succ_compute, containsK_false_lookupK hc]
    rfl

/-- Witness for C4: a failing creation against the missing cell
`Input ⟨7⟩`, a successful creation against the existing `Input ⟨0⟩`, and a
`value` query against the unregistered compute ID `⟨9⟩`. -/
theorem c4_create_compute_validation_witness :
    (containsK (CellID.Input ⟨7⟩) exSys.reactor.graph = false ∧
      exSys.reactor.create_compute 3 [CellID.Input ⟨7⟩] (fun _ => (0 : Int)) =
        (exSys.reactor, 3, .error (CellID.Input ⟨7⟩))) ∧
    ((∀ d ∈ [CellID.Input ⟨0⟩], containsK d exSys.reactor.graph = true) ∧
      ∃ cid : ComputeCellID,
        (exSys.reactor.create_compute 3 [CellID.Input ⟨0⟩]
          (fun vs => vs.headD 0 * 2)).2.2 = .ok cid ∧
        lookupK (CellID.Compute cid)
          (exSys.reactor.create_compute 3 [CellID.Input ⟨0⟩]
            (fun vs => vs.headD 0 * 2)).1.graph = some [CellID.Input ⟨0⟩]) ∧
    (containsK (⟨9⟩ : ComputeCellID) exSys.reactor.compute_cell_funcs = false ∧
      exSys.reactor.value (CellID.Compute ⟨9⟩) = none) :=
  ⟨⟨rfl, (c4_create_compute_validation exSys.reactor 3 [CellID.Input ⟨7⟩] (fun _ => (0 : Int))).1
      [] (CellID.Input ⟨7⟩) [] rfl (fun x hx => absurd hx (List.not_mem_nil x)) rfl⟩,
   ⟨by decide, (c4_create_compute_validation exSys.reactor 3 [CellID.Input ⟨0⟩]
      (fun vs => vs.headD 0 * 2)).2.1 (by decide)⟩,
   ⟨rfl, (c4_create_compute_validation exSys.reactor 3 [] (fun _ => (0 : Int))).2.2 ⟨9⟩ rfl⟩⟩

/-- **C5**: `value` on an input cell immediately after `create_input(v)`
returns `some v`; in general the value of an input cell is exactly what its
storage holds (`none` when absent). -/
theorem c5_input_cell_value {T : Type} [DecidableEq T] (r : Reactor T) (ctr : Nat) (v : T) :
    (r.create_input ctr v).1.value (CellID.Input (r.create_input ctr v).2.2) = some v ∧
    ∀ (r₂ : Reactor T) (j : InputCellID),
      r₂.value (CellID.Input j) = lookupK j r₂.input_values := by
  constructor
  · rw [Reactor.value, valueFuel_succ_input]
    exact lookupK_insertK_self _ _ _
  · intro r₂ j
    rfl

/-- **C8**: `remove_callback` distinguishes its two error kinds exactly as
the registry dictates — `NonexistentCell` precisely when the cell has no
registry entry, `NonexistentCallback` precisely when the entry lacks the
callback — leaving the reactor untouched on both error paths, and succeeds
otherwise. -/
theorem c8_remove_callback_errors {T : Type} [DecidableEq T] (r : Reactor T)
    (cell : ComputeCellID) (k : CallbackID) :
    (lookupK cell r.callbacks = none →
      r.remove_callback cell k = (r, .error .NonexistentCell)) ∧
    (∀ reg, lookupK cell r.callbacks = some reg → k ∉ reg →
      r.remove_callback cell k = (r, .error .NonexistentCallback)) ∧
    (∀ reg, lookupK cell r.callbacks = some reg → k ∈ reg →
      (r.remove_callback cell k).2 = .ok ()) := by
  refine ⟨?_, ?_, ?_⟩
  · intro h
    simp [Reactor.remove_callback, h]
  · intro reg h hk
    simp [Reactor.remove_callback, h, hk]
  · intro reg h hk
    simp [Reactor.remove_callback, h, hk]

/-- Witness for C8: in `exSys`, cell `⟨9⟩` has no registry entry, cell `⟨1⟩`
has one holding exactly callback `⟨2⟩`. -/
theorem c8_remove_callback_errors_witness :
    (lookupK (⟨9⟩ : ComputeCellID) exSys.reactor.callbacks = none ∧
      exSys.reactor.remove_callback ⟨9⟩ ⟨2⟩ =
        (exSys.reactor, .error .NonexistentCell)) ∧
    (lookupK (⟨1⟩ : ComputeCellID) exSys.reactor.callbacks = some [⟨2⟩] ∧
      (⟨5⟩ : CallbackID) ∉ ([⟨2⟩] : List CallbackID) ∧
      exSys.reactor.remove_callback ⟨1⟩ ⟨5⟩ =
        (exSys.reactor, .error .NonexistentCallback)) ∧
    ((⟨2⟩ : CallbackID) ∈ ([⟨2⟩] : List CallbackID) ∧
      (exSys.reactor.remove_callback ⟨1⟩ ⟨2⟩).2 = .ok ()) :=
  ⟨⟨rfl, (c8_remove_callback_errors exSys.reactor ⟨9⟩ ⟨2⟩).1 rfl⟩,
   ⟨rfl, by decide,
    (c8_remove_callback_errors exSys.reactor ⟨1⟩ ⟨5⟩).2.1 [⟨2⟩] rfl (by decide)⟩,
   ⟨by decide,
    (c8_remove_callback_errors exSys.reactor ⟨1⟩ ⟨2⟩).2.2 [⟨2⟩] rfl (by decide)⟩⟩

theorem transGen_edge_num_lt {g : List (CellID × List CellID)} (hg : WellRanked g)
    {u v : CellID} (h : Relation.TransGen (Edge g) u v) : v.num < u.num := by
  induction h with
  | single hstep =>
    obtain ⟨deps, hdeps, hmem⟩ := hstep
    exact hg _ _ hdeps _ hmem
  | tail _ hstep ih =>
    obtain ⟨deps, hdeps, hmem⟩ := hstep
    exact Nat.lt_trans (hg _ _ hdeps _ hmem) ih

/-- **C6**: in every reachable state the dependency graph is acyclic (no
cell transitively depends on itself) and has no dangling dependencies
(every listed dependency is itself a cell of the graph). -/
theorem c6_graph_acyclic_closed {T : Type} [DecidableEq T] (s : Sys T)
    (hs : Reachable s) :
    (∀ u : CellID, ¬ Relation.TransGen (Edge s.reactor.graph) u u) ∧
    (∀ u deps, lookupK u s.reactor.graph = some deps →
      ∀ d ∈ deps, d ∈ keysOf s.reactor.graph) := by
  have hInv := inv_of_reachable hs
  constructor
  · intro u hcycle
    exact Nat.lt_irrefl u.num (transGen_edge_num_lt hInv.ranked hcycle)
  · exact hInv.closed

/-- Witness for C6 at the concrete reachable system `exSys`. -/
theorem c6_graph_acyclic_closed_witness :
    Reachable exSys ∧
    ((∀ u : CellID, ¬ Relation.TransGen (Edge exSys.reactor.graph) u u) ∧
    (∀ u deps, lookupK u exSys.reactor.graph = some deps →
      ∀ d ∈ deps, d ∈ keysOf exSys.reactor.graph)) :=
  ⟨⟨0, exOps, rfl⟩, c6_graph_acyclic_closed exSys ⟨0, exOps, rfl⟩⟩

/-- **C10**: in every reachable state, every compute cell with a stored
compute function also has a graph entry, so the unchecked graph indexing
inside `value` cannot fail. -/
theorem c10_funcs_key_in_graph {T : Type} [DecidableEq T] (s : Sys T)
    (hs : Reachable s) (c : ComputeCellID)
    (hc : containsK c s.reactor.compute_cell_funcs = true) :
    CellID.Compute c ∈ keysOf s.reactor.graph ∧
    (lookupK (CellID.Compute c) s.reactor.graph).isSome :=
  ⟨((inv_of_reachable hs).compute_iff c).mpr hc,
   lookupK_isSome_of_mem_keys (((inv_of_reachable hs).compute_iff c).mpr hc)⟩

/-- Witness for C10 at `exSys` and its compute cell `⟨1⟩`. -/
theorem c10_funcs_key_in_graph_witness :
    Reachable exSys ∧
    containsK (⟨1⟩ : ComputeCellID) exSys.reactor.compute_cell_funcs = true ∧
    (CellID.Compute ⟨1⟩ ∈ keysOf exSys.reactor.graph ∧
      (lookupK (CellID.Compute ⟨1⟩) exSys.reactor.graph).isSome) :=
  ⟨⟨0, exOps, rfl⟩, rfl, c10_funcs_key_in_graph exSys ⟨0, exOps, rfl⟩ ⟨1⟩ rfl⟩

/-! ## Counting helpers for the callback-firing analysis -/
theorem filter_flatMap {α β : Type} (l : List α) (f : α → List β) (q : β → Bool) :
    (l.flatMap f).filter q = l.flatMap (fun x => (f x).filter q) := by
  induction l with
  | nil => rfl
  | cons a l ih => simp [List.flatMap_cons, List.filter_append, ih]

theorem flatMap_congr {α β : Type} {l : List α} {f g : α → List β}
    (h : ∀ x ∈ l, f x = g x) : l.flatMap f = l.flatMap g := by
  induction l with
  | nil => rfl
  | cons a l ih =>
    rw [List.flatMap_cons, List.flatMap_cons, h a (List.mem_cons_self _ _),
      ih (fun x hx => h x (List.mem_cons_of_mem _ hx))]

theorem flatMap_eq_nil_of {α β : Type} {l : List α} {f : α → List β}
    (h : ∀ x ∈ l, f x = []) : l.flatMap f = [] := by
  induction l with
  | nil => rfl
  | cons a l ih =>
    rw [List.flatMap_cons, h a (List.mem_cons_self _ _), List.nil_append]
    exact ih (fun x hx => h x (List.mem_cons_of_mem _ hx))

theorem flatMap_eq_of_unique {α β γ : Type} [DecidableEq α] {l : List (α × β)}
    {F : α × β → List γ} {c : α}
    (hnd : (l.map Prod.fst).Nodup) (hother : ∀ p ∈ l, p.1 ≠ c → F p = [])
    {p₀ : α × β} (hp₀ : p₀ ∈ l) (hfst : p₀.1 = c) :
    l.flatMap F = F p₀ := by
  induction l with
  | nil => cases hp₀
  | cons q l ih =>
    have hnd₂ : (l.map Prod.fst).Nodup := (List.nodup_cons.mp hnd).2
    have hhead : q.1 ∉ l.map Prod.fst := (List.nodup_cons.mp hnd).1
    rw [List.flatMap_cons]
    rcases List.mem_cons.mp hp₀ with h | h
    · subst h
      have hrest : ∀ p ∈ l, p.1 ≠ c := by
        intro p hp hpc
        exact hhead (hfst ▸ hpc ▸ List.mem_map.mpr ⟨p, hp, rfl⟩)
      rw [flatMap_eq_nil_of (fun p hp => hother p (List.mem_cons_of_mem _ hp) (hrest p hp)),
        List.append_nil]
    · have hqc : q.1 ≠ c := by
        intro hq
        exact hhead (hq ▸ hfst ▸ List.mem_map.mpr ⟨p₀, h, rfl⟩)
      rw [hother q (List.mem_cons_self _ _) hqc, List.nil_append]
      exact ih hnd₂ (fun p hp hpc => hother p (List.mem_cons_of_mem _ hp) hpc) h

theorem filter_fst_map_pair {α β : Type} [DecidableEq α] (k : α) (w : β)
    (reg : List α) :
    ((reg.map (fun cb => (cb, w))).filter (fun p => p.1 = k)) =
      (reg.filter (fun cb => cb = k)).map (fun cb => (cb, w)) := by
  induction reg with
  | nil => rfl
  | cons cb reg ih =>
    by_cases hcb : cb = k <;> simp [hcb, ih]

theorem filter_eq_nil_of_not_mem {α : Type} [DecidableEq α] {k : α} {l : List α}
    (hk : k ∉ l) : l.filter (fun x => x = k) = [] := by
  induction l with
  | nil => rfl
  | cons a l ih =>
    have ha : ¬ a = k := fun h => hk (h ▸ List.mem_cons_self _ _)
    rw [List.filter_cons]
    simp only [ha, decide_False]
    exact ih (fun h => hk (List.mem_cons_of_mem _ h))

theorem filter_eq_of_nodup {α : Type} [DecidableEq α] {k : α} {l : List α}
    (hnd : l.Nodup) (hk : k ∈ l) : l.filter (fun x => x = k) = [k] := by
  induction l with
  | nil => cases hk
  | cons a l ih =>
    by_cases ha : a = k
    · subst ha
      have hnot : a ∉ l := (List.nodup_cons.mp hnd).1
      rw [List.filter_cons]
      simp [filter_eq_nil_of_not_mem hnot]
    · have hk₂ : k ∈ l := by
        rcases List.mem_cons.mp hk with h | h
        · exact absurd h.symm ha
        · exact h
      rw [List.filter_cons]
      simp only [ha, decide_False]
      exact ih (List.nodup_cons.mp hnd).2 hk₂

theorem map_fst_filterMap_sublist {α β γ : Type} (l : List (α × β))
    (g : α × β → Option (α × γ)) (hg : ∀ p q, g p = some q → q.1 = p.1) :
    ((l.filterMap g).map Prod.fst).Sublist (l.map Prod.fst) := by
  induction l with
  | nil => simp
  | cons p l ih =>
    rw [List.filterMap_cons]
    cases hgp : g p with
    | none =>
      rw [List.map_cons]
      exact ih.cons _
    | some q =>
      rw [List.map_cons, List.map_cons, hg p q hgp]
      exact ih.cons₂ _

/-- The result of `set_value` on an existing input cell, with the two-phase
diffing protocol written out: the post-mutation reactor, `true`, and the
invocation trace over the affected-and-changed compute cells. -/
theorem set_value_true_spec (r : Reactor T) (id : InputCellID) (v : T)
    (h : containsK id r.input_values = true) :
    r.set_value id v =
      ({ r with input_values := insertK id v r.input_values }, true,
        ((((keysOf r.compute_cell_funcs).filter
              (fun cc => r.depends_on (CellID.Compute cc) (CellID.Input id))).map
            (fun cell => (cell, r.value (CellID.Compute cell)))).filterMap
          (fun p =>
            if Reactor.value { r with input_values := insertK id v r.input_values }
                (CellID.Compute p.1) ≠ p.2
            then (Reactor.value { r with input_values := insertK id v r.input_values }
                (CellID.Compute p.1)).map (fun w => (p.1, w))
            else none)).flatMap
          (fun p => ((lookupK p.1 r.callbacks).getD []).map (fun cb => (cb, p.2)))) := by
  rw [Reactor.set_value, if_pos h]

/-- Membership in the `cells_to_callback` list of `set_value`: exactly the
affected compute cells whose value changed to a resolvable value, paired
with that new value. -/
theorem mem_cells_to_callback {r r₂ : Reactor T} {ctc : List ComputeCellID}
    {p : ComputeCellID × T} :
    p ∈ (ctc.map (fun cell => (cell, r.value (CellID.Compute cell)))).filterMap
        (fun q => if r₂.value (CellID.Compute q.1) ≠ q.2
          then (r₂.value (CellID.Compute q.1)).map (fun w => (q.1, w)) else none) ↔
      p.1 ∈ ctc ∧ r₂.value (CellID.Compute p.1) = some p.2 ∧
        r₂.value (CellID.Compute p.1) ≠ r.value (CellID.Compute p.1) := by
  obtain ⟨p₁, p₂⟩ := p
  rw [List.mem_filterMap]
  constructor
  · rintro ⟨q, hq, hgq⟩
    obtain ⟨cell, hcell, rfl⟩ := List.mem_map.mp hq
    by_cases hne : r₂.value (CellID.Compute cell) ≠ r.value (CellID.Compute cell)
    · rw [if_pos hne] at hgq
      cases hv : r₂.value (CellID.Compute cell) with
      | none => rw [hv] at hgq; cases hgq
      | some w =>
        rw [hv] at hgq
        cases hgq
        exact ⟨hcell, hv, hne⟩
    · rw [if_neg hne] at hgq
      cases hgq
  · rintro ⟨hmem, hsome, hne⟩
    refine ⟨(p₁, r.value (CellID.Compute p₁)), List.mem_map.mpr ⟨p₁, hmem, rfl⟩, ?_⟩
    rw [if_pos hne, hsome]
    rfl

/-- The callback-count property of a single `set_value` call on an existing
input cell, proved from the state invariant. -/
theorem callback_fired_count (s : Sys T) (hInv : Inv s) (iid : InputCellID) (v : T)
    (hin : containsK iid s.reactor.input_values = true)
    (c : ComputeCellID) (k : CallbackID) (reg : List CallbackID)
    (hreg : lookupK c s.reactor.callbacks = some reg) (hk : k ∈ reg) :
    (((s.reactor.set_value iid v).2.2.filter (fun p => p.1 = k)).length =
      if (s.reactor.set_value iid v).1.value (CellID.Compute c) =
          s.reactor.value (CellID.Compute c) then 0 else 1) ∧
    ∀ p ∈ (s.reactor.set_value iid v).2.2, p.1 = k →
      some p.2 = (s.reactor.set_value iid v).1.value (CellID.Compute c) := by
  rw [set_value_true_spec s.reactor iid v hin]
  simp only [Prod.fst, Prod.snd]
  set r₂ : Reactor T :=
    { s.reactor with input_values := insertK iid v s.reactor.input_values } with hr₂
  set ctc : List ComputeCellID :=
    (keysOf s.reactor.compute_cell_funcs).filter
      (fun cc => s.reactor.depends_on (CellID.Compute cc) (CellID.Input iid)) with hctc
  set ctcb : List (ComputeCellID × T) :=
    (ctc.map (fun cell => (cell, s.reactor.value (CellID.Compute cell)))).filterMap
      (fun p => if r₂.value (CellID.Compute p.1) ≠ p.2
        then (r₂.value (CellID.Compute p.1)).map (fun w => (p.1, w)) else none) with hctcb
  have hInv₂ : Inv (⟨s.ctr, r₂⟩ : Sys T) := by
    have h₂ := inv_set_value hInv iid v
    rw [set_value_reactor, if_pos hin] at h₂
    exact h₂
  have hck : containsK c s.reactor.compute_cell_funcs = true :=
    hInv.cb_cells c (lookupK_mem_keys hreg)
  have hcmem : CellID.Compute c ∈ keysOf s.reactor.graph := (hInv.compute_iff c).mpr hck
  have hctc_nodup : ctc.Nodup := hInv.funcs_keys_nodup.filter _
  have hfst_nodup : (ctcb.map Prod.fst).Nodup := by
    apply List.Nodup.sublist
      (map_fst_filterMap_sublist _ _ ?_)
    · rw [List.map_map]
      rw [show (Prod.fst ∘ fun cell => (cell, s.reactor.value (CellID.Compute cell))) =
        (fun cell : ComputeCellID => cell) from rfl]
      rw [show List.map (fun cell : ComputeCellID => cell) ctc = ctc from List.map_id' ctc]
      exact hctc_nodup
    · intro p q hpq
      by_cases hne : r₂.value (CellID.Compute p.1) ≠ p.2
      · rw [if_pos hne] at hpq
        cases hv : r₂.value (CellID.Compute p.1) with
        | none => rw [hv] at hpq; cases hpq
        | some w => rw [hv] at hpq; cases hpq; rfl
      · rw [if_neg hne] at hpq; cases hpq
  have hother : ∀ p ∈ ctcb, p.1 ≠ c →
      (((lookupK p.1 s.reactor.callbacks).getD []).filter (fun cb => cb = k)).map
        (fun cb => (cb, p.2)) = [] := by
    intro p _ hpc
    cases hlp : lookupK p.1 s.reactor.callbacks with
    | none => rfl
    | some reg₂ =>
      have hknot : k ∉ reg₂ := by
        intro hkmem
        exact hpc (hInv.cb_disjoint p.1 c reg₂ reg k hlp hreg hkmem hk)
      rw [show ((some reg₂).getD [] : List CallbackID) = reg₂ from rfl,
        filter_eq_nil_of_not_mem hknot]
      rfl
  have hchar : (ctcb.flatMap
        (fun p => ((lookupK p.1 s.reactor.callbacks).getD []).map
          (fun cb => (cb, p.2)))).filter (fun p => p.1 = k) =
      ctcb.flatMap (fun p =>
        (((lookupK p.1 s.reactor.callbacks).getD []).filter (fun cb => cb = k)).map
          (fun cb => (cb, p.2))) := by
    rw [filter_flatMap]
    exact flatMap_congr (fun p _ => filter_fst_map_pair k p.2 _)
  by_cases hchange : r₂.value (CellID.Compute c) = s.reactor.value (CellID.Compute c)
  · have hnil : ctcb.flatMap (fun p =>
        (((lookupK p.1 s.reactor.callbacks).getD []).filter (fun cb => cb = k)).map
          (fun cb => (cb, p.2))) = [] := by
      apply flatMap_eq_nil_of
      intro p hp
      by_cases hpc : p.1 = c
      · obtain ⟨_, _, hne⟩ := (@mem_cells_to_callback T _ s.reactor r₂ _ _).mp hp
        exact absurd (hpc ▸ hchange) hne
      · exact hother p hp hpc
    constructor
    · rw [if_pos hchange, hchar, hnil]
      rfl
    · intro p hp hpk
      have hpmem : p ∈ (ctcb.flatMap
          (fun p => ((lookupK p.1 s.reactor.callbacks).getD []).map
            (fun cb => (cb, p.2)))).filter (fun p => p.1 = k) :=
        List.mem_filter.mpr ⟨hp, decide_eq_true hpk⟩
      rw [hchar, hnil] at hpmem
      cases hpmem
  · have hdep : s.reactor.depends_on (CellID.Compute c) (CellID.Input iid) = true := by
      cases hd : s.reactor.depends_on (CellID.Compute c) (CellID.Input iid) with
      | true => rfl
      | false =>
        have hnr := depends_on_false_not_reaches s.reactor _ _ hd
        have heq : r₂.value (CellID.Compute c) = s.reactor.value (CellID.Compute c) := by
          rw [hr₂, Reactor.value, Reactor.value]
          exact valueFuel_insert_input s.reactor iid v _ _ hnr
        exact absurd heq hchange
    have hcm : c ∈ ctc := List.mem_filter.mpr ⟨(containsK_iff_mem_keys _ _).mp hck, hdep⟩
    have hpost : (r₂.value (CellID.Compute c)).isSome :=
      value_isSome_of_inv hInv₂ (CellID.Compute c) hcmem
    obtain ⟨w, hw⟩ := Option.isSome_iff_exists.mp hpost
    have hp₀ : ((c, w) : ComputeCellID × T) ∈ ctcb :=
      (@mem_cells_to_callback T _ s.reactor r₂ _ _).mpr ⟨hcm, hw, hchange⟩
    have hsingle : ctcb.flatMap (fun p =>
        (((lookupK p.1 s.reactor.callbacks).getD []).filter (fun cb => cb = k)).map
          (fun cb => (cb, p.2))) = [(k, w)] := by
      rw [flatMap_eq_of_unique hfst_nodup hother hp₀ rfl]
      rw [show (((c, w) : ComputeCellID × T).1) = c from rfl, hreg,
        show ((some reg).getD [] : List CallbackID) = reg from rfl,
        filter_eq_of_nodup (hInv.cb_reg_nodup c reg hreg) hk]
      rfl
    constructor
    · rw [if_neg hchange, hchar, hsingle]
      rfl
    · intro p hp hpk
      have hpmem : p ∈ (ctcb.flatMap
          (fun p => ((lookupK p.1 s.reactor.callbacks).getD []).map
            (fun cb => (cb, p.2)))).filter (fun p => p.1 = k) :=
        List.mem_filter.mpr ⟨hp, decide_eq_true hpk⟩
      rw [hchar, hsingle] at hpmem
      rcases List.mem_cons.mp hpmem with h | h
      · rw [h, hw]
      · cases h

/-- **C2**: for a single `set_value` on an existing input cell of a
reachable state, a callback `k` registered on compute cell `c` contributes
zero invocations to the trace when `c`'s value is unchanged and exactly one
otherwise, and every invocation of `k` passes `c`'s post-mutation value. -/
theorem c2_callback_firing {T : Type} [DecidableEq T] (s : Sys T) (hs : Reachable s)
    (iid : InputCellID) (v : T) (hin : containsK iid s.reactor.input_values = true)
    (c : ComputeCellID) (k : CallbackID) (reg : List CallbackID)
    (hreg : lookupK c s.reactor.callbacks = some reg) (hk : k ∈ reg) :
    (((s.reactor.set_value iid v).2.2.filter (fun p => p.1 = k)).length =
      if (s.reactor.set_value iid v).1.value (CellID.Compute c) =
          s.reactor.value (CellID.Compute c) then 0 else 1) ∧
    ∀ p ∈ (s.reactor.set_value iid v).2.2, p.1 = k →
      some p.2 = (s.reactor.set_value iid v).1.value (CellID.Compute c) :=
  callback_fired_count s (inv_of_reachable hs) iid v hin c k reg hreg hk

/-- Witness for C2: mutating input `⟨0⟩` of `exSys` to `5` changes the
compute cell `⟨1⟩` (from `2` to `6`), so its callback `⟨2⟩` fires once with
the new value. -/
theorem c2_callback_firing_witness :
    Reachable exSys ∧
    containsK (⟨0⟩ : InputCellID) exSys.reactor.input_values = true ∧
    lookupK (⟨1⟩ : ComputeCellID) exSys.reactor.callbacks = some [⟨2⟩] ∧
    (⟨2⟩ : CallbackID) ∈ ([⟨2⟩] : List CallbackID) ∧
    ((((exSys.reactor.set_value ⟨0⟩ 5).2.2.filter
        (fun p => p.1 = (⟨2⟩ : CallbackID))).length =
      if (exSys.reactor.set_value ⟨0⟩ 5).1.value (CellID.Compute ⟨1⟩) =
          exSys.reactor.value (CellID.Compute ⟨1⟩) then 0 else 1) ∧
    ∀ p ∈ (exSys.reactor.set_value ⟨0⟩ 5).2.2, p.1 = (⟨2⟩ : CallbackID) →
      some p.2 = (exSys.reactor.set_value ⟨0⟩ 5).1.value (CellID.Compute ⟨1⟩)) :=
  ⟨⟨0, exOps, rfl⟩, rfl, rfl, List.mem_cons_self _ _,
   c2_callback_firing exSys ⟨0, exOps, rfl⟩ ⟨0⟩ 5 rfl ⟨1⟩ ⟨2⟩ [⟨2⟩] rfl
     (List.mem_cons_self _ _)⟩

theorem fired_mem_registered (r : Reactor T) (iid : InputCellID) (v : T) :
    ∀ p ∈ (r.set_value iid v).2.2,
      ∃ c₂ reg₂, lookupK c₂ r.callbacks = some reg₂ ∧ p.1 ∈ reg₂ := by
  intro p hp
  cases hin : containsK iid r.input_values with
  | false =>
    rw [Reactor.set_value, if_neg (by simp [hin])] at hp
    cases hp
  | true =>
    rw [set_value_true_spec r iid v hin] at hp
    obtain ⟨q, _, hpq⟩ := List.mem_flatMap.mp hp
    cases hlq : lookupK q.1 r.callbacks with
    | none =>
      rw [hlq] at hpq
      cases hpq
    | some reg₂ =>
      rw [hlq] at hpq
      obtain ⟨cb, hcb, rfl⟩ := List.mem_map.mp hpq
      exact ⟨q.1, reg₂, hlq, hcb⟩

theorem applyOp_fired_registered (s : Sys T) (op : Op T) :
    ∀ p ∈ (applyOp s op).2.2,
      ∃ c₂ reg₂, lookupK c₂ s.reactor.callbacks = some reg₂ ∧ p.1 ∈ reg₂ := by
  cases op with
  | createInput v => intro p hp; cases hp
  | createCompute deps f => intro p hp; cases hp
  | setValue i v => exact fired_mem_registered s.reactor i v
  | addCallback c => intro p hp; cases hp
  | removeCallback c k => intro p hp; cases hp

theorem notRegistered_applyOp {s : Sys T} {k : CallbackID} (h : NotRegistered k s)
    (op : Op T) : NotRegistered k (applyOp s op).1 := by
  obtain ⟨hlt, hreg⟩ := h
  cases op with
  | createInput v =>
    exact ⟨Nat.lt_succ_of_lt hlt, hreg⟩
  | createCompute deps f =>
    cases hf : deps.find? (fun dep => !containsK dep s.reactor.graph) with
    | some d =>
      have hstep : applyOp s (Op.createCompute deps f) = (s, [], []) := by
        simp [applyOp, Reactor.create_compute, hf]
      rw [hstep]
      exact ⟨hlt, hreg⟩
    | none =>
      have hstep : (applyOp s (Op.createCompute deps f)).1.ctr = s.ctr + 1 ∧
          (applyOp s (Op.createCompute deps f)).1.reactor.callbacks =
            s.reactor.callbacks := by
        simp [applyOp, Reactor.create_compute, hf]
      constructor
      · rw [hstep.1]
        exact Nat.lt_succ_of_lt hlt
      · rw [hstep.2]
        exact hreg
  | setValue i v =>
    constructor
    · exact hlt
    · show ∀ c reg, lookupK c (s.reactor.set_value i v).1.callbacks = some reg → k ∉ reg
      rw [set_value_reactor]
      by_cases hin : containsK i s.reactor.input_values
      · rw [if_pos hin]
        exact hreg
      · rw [if_neg hin]
        exact hreg
  | addCallback c =>
    by_cases hc : containsK c s.reactor.compute_cell_funcs
    · have hstep : (applyOp s (Op.addCallback c)).1.ctr = s.ctr + 1 ∧
          (applyOp s (Op.addCallback c)).1.reactor.callbacks =
            insertK c (List.insert (⟨s.ctr⟩ : CallbackID)
              ((lookupK c s.reactor.callbacks).getD [])) s.reactor.callbacks := by
        simp [applyOp, Reactor.add_callback, hc]
      constructor
      · rw [hstep.1]
        exact Nat.lt_succ_of_lt hlt
      · rw [hstep.2]
        intro c₂ reg₂ hc₂ hkmem
        rw [lookupK_insertK] at hc₂
        by_cases hcc : c₂ = c
        · rw [if_pos hcc] at hc₂
          cases hc₂
          rcases List.mem_insert_iff.mp hkmem with hkc | hkc
          · rw [hkc] at hlt
            simp at hlt
          · cases hlc : lookupK c s.reactor.callbacks with
            | none => rw [hlc] at hkc; cases hkc
            | some reg₀ =>
              rw [hlc] at hkc
              exact hreg c reg₀ hlc hkc
        · rw [if_neg hcc] at hc₂
          exact hreg c₂ reg₂ hc₂ hkmem
    · have hstep : applyOp s (Op.addCallback c) = (s, [], []) := by
        simp [applyOp, Reactor.add_callback, hc]
      rw [hstep]
      exact ⟨hlt, hreg⟩
  | removeCallback c k₂ =>
    constructor
    · exact hlt
    · cases hrc : lookupK c s.reactor.callbacks with
      | none =>
        have hstep : (s.reactor.remove_callback c k₂).1 = s.reactor := by
          simp [Reactor.remove_callback, hrc]
        show ∀ c₃ reg₃, lookupK c₃ (s.reactor.remove_callback c k₂).1.callbacks =
          some reg₃ → k ∉ reg₃
        rw [hstep]
        exact hreg
      | some reg₀ =>
        by_cases hk₂ : k₂ ∈ reg₀
        · have hstep : (s.reactor.remove_callback c k₂).1 =
              { s.reactor with callbacks := insertK c (reg₀.erase k₂) s.reactor.callbacks } := by
            simp [Reactor.remove_callback, hrc, hk₂]
          show ∀ c₃ reg₃, lookupK c₃ (s.reactor.remove_callback c k₂).1.callbacks =
            some reg₃ → k ∉ reg₃
          rw [hstep]
          intro c₃ reg₃ hc₃ hkmem
          rw [lookupK_insertK] at hc₃
          by_cases hcc : c₃ = c
          · rw [if_pos hcc] at hc₃
            cases hc₃
            exact hreg c reg₀ hrc (List.mem_of_mem_erase hkmem)
          · rw [if_neg hcc] at hc₃
            exact hreg c₃ reg₃ hc₃ hkmem
        · have hstep : (s.reactor.remove_callback c k₂).1 = s.reactor := by
            simp [Reactor.remove_callback, hrc, hk₂]
          show ∀ c₃ reg₃, lookupK c₃ (s.reactor.remove_callback c k₂).1.callbacks =
            some reg₃ → k ∉ reg₃
          rw [hstep]
          exact hreg

theorem runOps_no_fire {s : Sys T} {k : CallbackID} (h : NotRegistered k s)
    (ops : List (Op T)) : ∀ p ∈ (runOps s ops).2.2, p.1 ≠ k := by
  induction ops generalizing s with
  | nil => intro p hp; cases hp
  | cons op ops ih =>
    intro p hp hpk
    rw [runOps] at hp
    rcases List.mem_append.mp hp with hp | hp
    · obtain ⟨c₂, reg₂, hlk, hmem⟩ := applyOp_fired_registered s op p hp
      exact h.2 c₂ reg₂ hlk (hpk ▸ hmem)
    · exact ih (notRegistered_applyOp h op) p hp hpk

theorem notRegistered_after_remove {s : Sys T} (hInv : Inv s) {cell : ComputeCellID}
    {k : CallbackID} (hok : (s.reactor.remove_callback cell k).2 = .ok ()) :
    NotRegistered k (⟨s.ctr, (s.reactor.remove_callback cell k).1⟩ : Sys T) := by
  cases hrc : lookupK cell s.reactor.callbacks with
  | none =>
    have : (s.reactor.remove_callback cell k).2 =
        .error RemoveCallbackError.NonexistentCell := by
      simp [Reactor.remove_callback, hrc]
    rw [this] at hok
    cases hok
  | some reg =>
    by_cases hk : k ∈ reg
    · have hstep : (s.reactor.remove_callback cell k).1 =
          { s.reactor with callbacks := insertK cell (reg.erase k) s.reactor.callbacks } := by
        simp [Reactor.remove_callback, hrc, hk]
      constructor
      · exact hInv.cb_ids_lt cell reg hrc k hk
      · show ∀ c₂ reg₂, lookupK c₂ (s.reactor.remove_callback cell k).1.callbacks =
          some reg₂ → k ∉ reg₂
        rw [hstep]
        intro c₂ reg₂ hc₂ hkmem
        rw [lookupK_insertK] at hc₂
        by_cases hcc : c₂ = cell
        · rw [if_pos hcc] at hc₂
          cases hc₂
          have hnd : reg.Nodup := hInv.cb_reg_nodup cell reg hrc
          rw [List.Nodup.mem_erase_iff hnd] at hkmem
          exact hkmem.1 rfl
        · rw [if_neg hcc] at hc₂
          exact hcc (hInv.cb_disjoint c₂ cell reg₂ reg k hc₂ hrc hkmem hk)
    · have : (s.reactor.remove_callback cell k).2 =
          .error RemoveCallbackError.NonexistentCallback := by
        simp [Reactor.remove_callback, hrc, hk]
      rw [this] at hok
      cases hok

/-- **C7**: once `remove_callback` has succeeded, the removed callback is
never invoked by any subsequent sequence of operations on the reactor. -/
theorem c7_removed_callback_never_fires {T : Type} [DecidableEq T] (s : Sys T)
    (hs : Reachable s) (cell : ComputeCellID) (k : CallbackID)
    (hok : (s.reactor.remove_callback cell k).2 = .ok ())
    (ops : List (Op T)) :
    ∀ p ∈ (runOps ⟨s.ctr, (s.reactor.remove_callback cell k).1⟩ ops).2.2, p.1 ≠ k :=
  runOps_no_fire (notRegistered_after_remove (inv_of_reachable hs) hok) ops

/-- Witness for C7: remove callback `⟨2⟩` from `exSys`, then mutate the
input; nothing in the subsequent trace invokes `⟨2⟩`. -/
theorem c7_removed_callback_never_fires_witness :
    Reachable exSys ∧
    (exSys.reactor.remove_callback ⟨1⟩ ⟨2⟩).2 = .ok () ∧
    ∀ p ∈ (runOps ⟨exSys.ctr, (exSys.reactor.remove_callback ⟨1⟩ ⟨2⟩).1⟩
        [Op.setValue ⟨0⟩ 5]).2.2, p.1 ≠ (⟨2⟩ : CallbackID) :=
  ⟨⟨0, exOps, rfl⟩, rfl,
   c7_removed_callback_never_fires exSys ⟨0, exOps, rfl⟩ ⟨1⟩ ⟨2⟩ rfl
     [Op.setValue ⟨0⟩ 5]⟩

theorem applyOp_issued_bounds (s : Sys T) (op : Op T) :
    s.ctr ≤ (applyOp s op).1.ctr ∧
    (∀ x ∈ (applyOp s op).2.1, s.ctr ≤ x ∧ x < (applyOp s op).1.ctr) ∧
    (applyOp s op).2.1.Pairwise (· < ·) := by
  cases op with
  | createInput v =>
    have hstep : (applyOp s (Op.createInput v)).1.ctr = s.ctr + 1 ∧
        (applyOp s (Op.createInput v)).2.1 = [s.ctr] := ⟨rfl, rfl⟩
    rw [hstep.1, hstep.2]
    refine ⟨Nat.le_succ _, ?_, List.pairwise_singleton _ _⟩
    intro x hx
    have hx₂ : x = s.ctr := List.mem_singleton.mp hx
    omega
  | createCompute deps f =>
    cases hf : deps.find? (fun dep => !containsK dep s.reactor.graph) with
    | some d =>
      have hstep : applyOp s (Op.createCompute deps f) = (s, [], []) := by
        simp [applyOp, Reactor.create_compute, hf]
      rw [hstep]
      exact ⟨Nat.le_refl _, fun x hx => absurd hx (List.not_mem_nil x), List.Pairwise.nil⟩
    | none =>
      have hstep : (applyOp s (Op.createCompute deps f)).1.ctr = s.ctr + 1 ∧
          (applyOp s (Op.createCompute deps f)).2.1 = [s.ctr] := by
        simp [applyOp, Reactor.create_compute, hf]
      rw [hstep.1, hstep.2]
      refine ⟨Nat.le_succ _, ?_, List.pairwise_singleton _ _⟩
      intro x hx
      have hx₂ : x = s.ctr := List.mem_singleton.mp hx
      omega
  | setValue i v =>
    exact ⟨Nat.le_refl _, fun x hx => absurd hx (List.not_mem_nil x), List.Pairwise.nil⟩
  | addCallback c =>
    by_cases hc : containsK c s.reactor.compute_cell_funcs
    · have hstep : (applyOp s (Op.addCallback c)).1.ctr = s.ctr + 1 ∧
          (applyOp s (Op.addCallback c)).2.1 = [s.ctr] := by
        simp [applyOp, Reactor.add_callback, hc]
      rw [hstep.1, hstep.2]
      refine ⟨Nat.le_succ _, ?_, List.pairwise_singleton _ _⟩
      intro x hx
      have hx₂ : x = s.ctr := List.mem_singleton.mp hx
      omega
    · have hstep : applyOp s (Op.addCallback c) = (s, [], []) := by
        simp [applyOp, Reactor.add_callback, hc]
      rw [hstep]
      exact ⟨Nat.le_refl _, fun x hx => absurd hx (List.not_mem_nil x), List.Pairwise.nil⟩
  | removeCallback c k =>
    exact ⟨Nat.le_refl _, fun x hx => absurd hx (List.not_mem_nil x), List.Pairwise.nil⟩

theorem applyMOp_issued_bounds (s : MSys T) (op : MOp T) :
    s.ctr ≤ (applyMOp s op).1.ctr ∧
    (∀ x ∈ (applyMOp s op).2, s.ctr ≤ x ∧ x < (applyMOp s op).1.ctr) ∧
    (applyMOp s op).2.Pairwise (· < ·) := by
  cases op with
  | newReactor =>
    exact ⟨Nat.le_refl _, fun x hx => absurd hx (List.not_mem_nil x), List.Pairwise.nil⟩
  | onReactor i op =>
    cases hi : s.reactors[i]? with
    | none =>
      have hstep : applyMOp s (MOp.onReactor i op) = (s, []) := by
        simp [applyMOp, hi]
      rw [hstep]
      exact ⟨Nat.le_refl _, fun x hx => absurd hx (List.not_mem_nil x), List.Pairwise.nil⟩
    | some r =>
      have hstep : applyMOp s (MOp.onReactor i op) =
          (⟨(applyOp (⟨s.ctr, r⟩ : Sys T) op).1.ctr,
            s.reactors.set i (applyOp (⟨s.ctr, r⟩ : Sys T) op).1.reactor⟩,
           (applyOp (⟨s.ctr, r⟩ : Sys T) op).2.1) := by
        simp [applyMOp, hi]
      rw [hstep]
      exact applyOp_issued_bounds (⟨s.ctr, r⟩ : Sys T) op

theorem runMOps_issued_strict (s : MSys T) (ops : List (MOp T)) :
    s.ctr ≤ (runMOps s ops).1.ctr ∧
    (∀ x ∈ (runMOps s ops).2, s.ctr ≤ x ∧ x < (runMOps s ops).1.ctr) ∧
    (runMOps s ops).2.Pairwise (· < ·) := by
  induction ops generalizing s with
  | nil =>
    exact ⟨Nat.le_refl _, fun x hx => absurd hx (List.not_mem_nil x), List.Pairwise.nil⟩
  | cons op ops ih =>
    obtain ⟨hle₁, hbd₁, hpw₁⟩ := applyMOp_issued_bounds s op
    obtain ⟨hle₂, hbd₂, hpw₂⟩ := ih (applyMOp s op).1
    rw [runMOps]
    refine ⟨Nat.le_trans hle₁ hle₂, ?_, ?_⟩
    · intro x hx
      rcases List.mem_append.mp hx with hx | hx
      · obtain ⟨h₁, h₂⟩ := hbd₁ x hx
        exact ⟨h₁, Nat.lt_of_lt_of_le h₂ hle₂⟩
      · obtain ⟨h₁, h₂⟩ := hbd₂ x hx
        exact ⟨Nat.le_trans hle₁ h₁, h₂⟩
    · rw [List.pairwise_append]
      refine ⟨hpw₁, hpw₂, ?_⟩
      intro x hx y hy
      exact Nat.lt_of_lt_of_le (hbd₁ x hx).2 (hbd₂ y hy).1

/-- **C9**: along any sequence of process-level operations, over any number
of reactors sharing the `OBJECT_ID` counter, the issued identifier numbers
are strictly increasing (the counter never revisits a value), hence no two
issued identifiers — of any of the three kinds — carry the same number. -/
theorem c9_issued_ids_unique {T : Type} [DecidableEq T] (s : MSys T)
    (ops : List (MOp T)) :
    (runMOps s ops).2.Pairwise (· < ·) ∧
    (runMOps s ops).2.Nodup ∧
    s.ctr ≤ (runMOps s ops).1.ctr ∧
    ∀ x ∈ (runMOps s ops).2, s.ctr ≤ x ∧ x < (runMOps s ops).1.ctr := by
  obtain ⟨hle, hbd, hpw⟩ := runMOps_issued_strict s ops
  exact ⟨hpw, hpw.imp Nat.ne_of_lt, hle, hbd⟩

end React

